import Mathlib

/-!
# Verification of the SymbolicComputation polynomial engine

Shallow embedding of `src/symboliccomputation` (files `indeterminate/indeterminate.py`,
`polynomial/polynomial.py`, `number/real.py`).

Modelling conventions, used throughout:

* `np.float64` coefficients are modelled as exact rationals (`ℚ`).  Every claim
  under consideration concerns arithmetic identities (negation, multiplication
  by one, summing a value with its negation, truncating exact products) that
  IEEE doubles compute exactly on the inputs involved; binary rounding of
  decimal literals never changes the truth value of any claim below and is
  therefore abstracted away.  `np.int64` exponents are modelled as `Int`
  (no claim involves values anywhere near overflow).
* Python `dict[Indeterminate, np.int64]` is modelled as an insertion-ordered
  association list `List (Indeterminate × Int)`; Python guarantees the keys
  are pairwise distinct.  Python `dict` equality (order-independent equality
  of key/value sets) is `dictPyEq`.
* A Python `set` of monomials is modelled as its iteration sequence, a
  `List Monomial`.  Building a set hashes every element; `Monomial.__hash__`
  and `Monomial.__eq__` both evaluate `sorted(self.weight_dict.items())`,
  and `sorted` compares `(Indeterminate, exponent)` tuples with `<`, which
  `Indeterminate` does not implement.  We model this faithfully in the
  `Except PyErr` monad: comparing two tuples with distinct indeterminates
  raises `TypeError` (constructor `.typeErrorUnorderable`), so any weight
  dict with two or more keys is unhashable and uncomparable.
* Every raise site of the source is a constructor of `PyErr`; the constructor
  arguments are exactly the values interpolated into the Python message
  (a constructor without arguments corresponds to a fixed message string).
-/

namespace SymbolicComputation

/-- `indeterminate.py`, class `Indeterminate`: the constructor stores the
given name with no validation of any kind (`self.name = name` is the whole
body). Equality and hashing are by name. -/
structure Indeterminate where
  name : String
deriving DecidableEq, Repr

/-- `Indeterminate.__init__`: returns a fresh object holding the name.  The
result type is `Except` so that the (non-)occurrence of validation errors is
part of the model; the source performs no check, so the result is always
`.ok`. -/
def indeterminateInit (name : String) : Except Unit Indeterminate :=
  .ok ⟨name⟩

/-- A weight dictionary: Python `dict[Indeterminate, np.int64]` in insertion
order. -/
abbrev WDict := List (Indeterminate × Int)

/-- `polynomial.py`, class `Monomial`: a coefficient (`np.float64`, modelled
as `ℚ`) and a weight dictionary. -/
structure Monomial where
  coefficient : ℚ
  weight_dict : WDict
deriving DecidableEq, Repr

/-- The distinguished error values a run of the embedded code can raise.
Constructor arguments are the values interpolated into the corresponding
Python message:

* `invalidMonomial` — `ValueError("Invalid monomial expression!")`
  (`Monomial.__init__`; the message is a fixed string, nothing interpolated);
* `repeatIndeterminates` — `ValueError("Invalid monomial expression: no
  repeat indeterminates!")` (`Monomial.__init__`, fixed string);
* `invalidToken tok` — `ValueError(f"Invalid input: token '{tok}'!")`
  (`Polynomial.__init__`);
* `invalidSequentialTokens t1 t2` — `ValueError(f"Invalid sequential tokens:
  {t1}, {t2}!")` (`Polynomial.__init__`);
* `repeatedMonomials m1 m2` — `ValueError(f"Invalid input: repeated
  monomials {m1}, {m2}!")` (`Polynomial.__init__`);
* `codeIssue` — `ValueError("Code issue: all cases should have been
  checked.")` (`Polynomial.__init__`, the unreachable fall-through branch);
* `typeErrorUnorderable` — the `TypeError` CPython raises when `sorted`
  compares two `Indeterminate` objects (no `__lt__`/`__gt__`);
* `typeErrorUnhashableSet` — the `TypeError` CPython raises when a built-in
  `set` is hashed (`unhashable type: 'set'`). -/
inductive PyErr where
  | invalidMonomial
  | repeatIndeterminates
  | invalidToken (tok : String)
  | invalidSequentialTokens (t1 t2 : String)
  | repeatedMonomials (m1 m2 : Monomial)
  | codeIssue
  | typeErrorUnorderable
  | typeErrorUnhashableSet
deriving DecidableEq, Repr

/-- Which token strings an error value reports: `true` exactly when the
Python message of the error interpolates the string `s` (see `PyErr`). -/
def PyErr.namesToken : PyErr → String → Bool
  | .invalidToken tok, s => tok == s
  | .invalidSequentialTokens t1 t2, s => t1 == s || t2 == s
  | _, _ => false

/-! ## Python dictionary and comparison semantics -/

/-- Python `dict.__eq__`: order-independent equality of the key/value
mappings (each entry of one dict is mapped identically by the other, both
ways; `lookup` is by key, first entry wins, as in a duplicate-free dict). -/
def dictPyEq (d1 d2 : WDict) : Bool :=
  d1.all (fun kv => d2.lookup kv.1 == some kv.2) &&
    d2.all (fun kv => d1.lookup kv.1 == some kv.2)

/-- Python `<` on `(Indeterminate, np.int64)` tuples: the first components
are compared with `==` first; if they differ, `<` is attempted on the
`Indeterminate` components, which raises `TypeError` (class `Indeterminate`
implements no ordering). -/
def pyPairLt (a b : Indeterminate × Int) : Except PyErr Bool :=
  if a.1 = b.1 then .ok (decide (a.2 < b.2)) else .error .typeErrorUnorderable

/-- Insert into a sorted list using Python tuple comparison, propagating the
`TypeError` of an unorderable comparison. -/
def pyInsertSorted (x : Indeterminate × Int) :
    List (Indeterminate × Int) → Except PyErr (List (Indeterminate × Int))
  | [] => .ok [x]
  | y :: ys =>
    match pyPairLt x y with
    | .error e => .error e
    | .ok true => .ok (x :: y :: ys)
    | .ok false =>
      match pyInsertSorted x ys with
      | .error e => .error e
      | .ok r => .ok (y :: r)

/-- Python `sorted(weight_dict.items())`, modelled as an insertion sort in
the `Except` monad.  Outcome-equivalent to CPython's sort: with at most one
entry no comparison happens and the list is returned; with two or more
entries (whose keys are distinct in any genuine dict) the first tuple
comparison raises `TypeError`. -/
def pyKeySorted : List (Indeterminate × Int) → Except PyErr (List (Indeterminate × Int))
  | [] => .ok []
  | x :: xs =>
    match pyKeySorted xs with
    | .error e => .error e
    | .ok s => pyInsertSorted x s

/-- `Monomial.__key` (also the argument of `hash` in `Monomial.__hash__`):
the pair `(coefficient, sorted(weight_dict.items()))`.  Both `__eq__` and
`__hash__` of the source evaluate exactly this, so equality of keys models
equality of hashes, and an error here is the `TypeError` the source raises. -/
def monomialKey (m : Monomial) : Except PyErr (ℚ × List (Indeterminate × Int)) :=
  match pyKeySorted m.weight_dict with
  | .error e => .error e
  | .ok s => .ok (m.coefficient, s)

/-- `Monomial.__eq__`: compare the two keys (raising whatever either key
computation raises). -/
def pyMonomialEq (m1 m2 : Monomial) : Except PyErr Bool :=
  match monomialKey m1 with
  | .error e => .error e
  | .ok k1 =>
    match monomialKey m2 with
    | .error e => .error e
    | .ok k2 => .ok (k1 == k2)

/-! ## The monomial literal grammar

`Monomial.MONOMIAL_REGEX = ^(-\d+)?\d*(\.\d+)?([a-z]+(\^[1-9]\d*)?)?(\*[a-z]+(\^[1-9]\d*)?)*$`

The regex is anchored and deterministic: every optional group starts with a
character (`-`, `.`, a lowercase letter, `^`, `*`) that no later element of
the pattern can consume, so skipping a group that fails internally always
fails the whole match exactly as committing to it does.  The matcher below
is therefore a direct decision procedure for the regex. -/

/-- `[a-z]` -/
def isLowerAlpha (c : Char) : Bool := 'a' ≤ c && c ≤ 'z'

/-- `\d` -/
def isDigitCh (c : Char) : Bool := '0' ≤ c && c ≤ '9'

/-- `[1-9]` -/
def isNonzeroDigitCh (c : Char) : Bool := '1' ≤ c && c ≤ '9'

/-- Split a character list at every occurrence of `sep` (Python
`str.split(sep)` for a one-character separator: `"" ↦ [""]`, adjacent
separators produce empty pieces). -/
def splitOnCh (sep : Char) : List Char → List (List Char)
  | [] => [[]]
  | c :: cs =>
    match splitOnCh sep cs with
    | [] => [[]]
    | h :: t => if c = sep then [] :: h :: t else (c :: h) :: t

/-- One `[a-z]+(\^[1-9]\d*)?` term, required to span a whole piece (a piece
of the input split on `*` — neither the numeric part nor a term can contain
`*`, so the star-separated structure of the regex is exactly the
piece-by-piece structure). -/
def isFullTerm (p : List Char) : Bool :=
  let letters := p.takeWhile isLowerAlpha
  let rest := p.dropWhile isLowerAlpha
  !letters.isEmpty &&
    match rest with
    | [] => true
    | '^' :: d :: ds => isNonzeroDigitCh d && ds.all isDigitCh
    | _ => false

/-- The part of the pattern after the numeric prefix:
`([a-z]+(\^[1-9]\d*)?)?(\*[a-z]+(\^[1-9]\d*)?)*`, required to consume the
whole remaining input.  Splitting the remainder on `*`, the piece before the
first `*` must be empty (head group skipped) or one full term, and every
later piece must be one full term. -/
def matchTermsPart (cs : List Char) : Bool :=
  match splitOnCh '*' cs with
  | [] => true
  | p0 :: rest => (p0.isEmpty || isFullTerm p0) && rest.all isFullTerm

/-- The anchored match of `MONOMIAL_REGEX` against the whole input. -/
def matchMonomialChars (cs : List Char) : Bool :=
  -- (-\d+)?  (greedy; if it fails after `-`, the leftover `-` can never be
  -- matched by any later element, so the whole match fails)
  let s1 : Option (List Char) :=
    match cs with
    | '-' :: rest =>
      if (rest.takeWhile isDigitCh).isEmpty then none
      else some (rest.dropWhile isDigitCh)
    | _ => some cs
  -- \d*
  let s2 : Option (List Char) := s1.map (·.dropWhile isDigitCh)
  -- (\.\d+)?  (same leftover argument as above for a lone `.`)
  let s3 : Option (List Char) :=
    s2.bind fun r =>
      match r with
      | '.' :: rest =>
        if (rest.takeWhile isDigitCh).isEmpty then none
        else some (rest.dropWhile isDigitCh)
      | _ => some r
  match s3 with
  | none => false
  | some r => matchTermsPart r

/-- `Monomial.is_valid_monomial_regex`. -/
def isValidMonomialRegex (monomial : String) : Bool :=
  matchMonomialChars monomial.data

/-! ## Parsing a monomial literal (`Monomial.__init__`) -/

/-- `np.float64(s)` as used on the piece of a (regex-valid) literal before
the first `*`: succeeds exactly on `[-]digits[.digits]` with at least one
digit, yielding its exact decimal value; fails (Python `ValueError`, caught
by the `try` in `Monomial.__init__`) on anything else.  (The special
textual floats `nan`/`inf`, which the term grammar can also produce as
letter sequences, are modelled as non-numeric: `ℚ` has no NaN.  No claim
involves them.) -/
def pyFloatOfChars (cs : List Char) : Option ℚ :=
  let (sign, cs') : ℚ × List Char :=
    match cs with
    | '-' :: rest => (-1, rest)
    | _ => (1, cs)
  let intDigits := cs'.takeWhile isDigitCh
  let afterInt := cs'.dropWhile isDigitCh
  let fracPart : Option (List Char) :=
    match afterInt with
    | [] => some []
    | '.' :: rest => if rest.all isDigitCh && !rest.isEmpty then some rest else none
    | _ => none
  match fracPart with
  | none => none
  | some frac =>
    if intDigits.isEmpty && frac.isEmpty then none
    else
      let intVal : ℚ := intDigits.foldl (fun a c => a * 10 + (c.toNat - '0'.toNat : ℕ)) 0
      let fracVal : ℚ := frac.foldl (fun a c => a * 10 + (c.toNat - '0'.toNat : ℕ)) 0
      some (sign * (intVal + fracVal / (10 : ℚ) ^ frac.length))

/-- `np.int64(s)` on a digit string (the exponent of a term). -/
def intOfDigits (cs : List Char) : Int :=
  cs.foldl (fun a c => a * 10 + ((c.toNat - '0'.toNat : ℕ) : Int)) 0

/-- Python string comparison `<` (lexicographic by code point). -/
def charsLt : List Char → List Char → Bool
  | [], [] => false
  | [], _ :: _ => true
  | _ :: _, [] => false
  | a :: as, b :: bs =>
    if a.val < b.val then true
    else if b.val < a.val then false
    else charsLt as bs

/-- Stable insertion into a `charsLt`-sorted list. -/
def insertChars (x : List Char) : List (List Char) → List (List Char)
  | [] => [x]
  | y :: ys => if charsLt x y then x :: y :: ys else y :: insertChars x ys

/-- Python `list.sort()` on the term strings of a monomial literal. -/
def sortChars : List (List Char) → List (List Char)
  | [] => []
  | x :: xs => insertChars x (sortChars xs)

/-- `Monomial.__init__` on the characters of the literal:

1. reject the literal unless it matches `MONOMIAL_REGEX`;
2. split on `*`; if `np.float64` accepts the first piece, pop it as the
   coefficient, otherwise the coefficient defaults to `1`;
3. sort the remaining pieces (by raw term string);
4. split each piece on `^`, appending the default exponent `"1"` to the
   one-element splits;
5. reject if two pieces name the same indeterminate;
6. build the weight dict in sorted order. -/
def monomialInitChars (cs : List Char) : Except PyErr Monomial :=
  if !matchMonomialChars cs then .error .invalidMonomial
  else
    let pieces := splitOnCh '*' cs
    let (coefficient, terms) : ℚ × List (List Char) :=
      match pieces with
      | [] => (1, [])
      | p0 :: rest =>
        match pyFloatOfChars p0 with
        | some c => (c, rest)
        | none => (1, p0 :: rest)
    let sorted := sortChars terms
    let fullySplit := sorted.map (splitOnCh '^')
    let withOnes := fullySplit.map (fun e => if e.length = 1 then e ++ [['1']] else e)
    let names := withOnes.map (fun e => e.headD [])
    if names.dedup.length ≠ names.length then .error .repeatIndeterminates
    else
      let weight_dict : WDict :=
        withOnes.map (fun e => (⟨⟨e.headD []⟩⟩, intOfDigits (e.getD 1 [])))
      .ok ⟨coefficient, weight_dict⟩

/-- `Monomial(monomial)` on a string literal. -/
def monomialFromLiteral (monomial : String) : Except PyErr Monomial :=
  monomialInitChars monomial.data

/-- `Monomial("0")`: coefficient `0`, empty weight dict (the canonical zero
monomial). -/
def zeroMonomial : Monomial := ⟨0, []⟩

deriving instance DecidableEq for Except

/-! ## Polynomials

`Polynomial` stores the set of member monomials and the derived set of
indeterminates; both Python sets are modelled as their iteration sequences
(first-insertion order). -/

/-- `polynomial.py`, class `Polynomial`. -/
structure Polynomial where
  monomials : List Monomial
  indeterminates : List Indeterminate
deriving DecidableEq, Repr

/-- Build a Python `set` from a sequence of monomials: each element is
hashed in turn (possibly raising `TypeError`, see `monomialKey`), and an
element equal to an already-inserted one is dropped.  (CPython calls
`__eq__` only on elements whose hashes were computed successfully, and for
those the comparison cannot raise, so dedup uses the key values.) -/
def mkPySet : List Monomial → Except PyErr (List Monomial)
  | [] => .ok []
  | m :: rest =>
    match monomialKey m with
    | .error e => .error e
    | .ok k =>
      match mkPySet rest with
      | .error e => .error e
      | .ok s => .ok (m :: s.filter (fun n => (monomialKey n).toOption != some k))

/-- Structural monomial equality: equal coefficients and equal weight dicts
(Python-`dict`-equal).  For monomials whose keys sort without error — the
only ones that can sit inside a Python set — this coincides with
`Monomial.__eq__`. -/
def monomialEqv (m n : Monomial) : Bool :=
  m.coefficient == n.coefficient && dictPyEq m.weight_dict n.weight_dict

/-- Equality of two monomial collections as sets (mutual membership up to
`monomialEqv`): Python `set == set` for sets of monomials. -/
def monomialSetEq (l1 l2 : List Monomial) : Bool :=
  l1.all (fun a => l2.any (monomialEqv a)) && l2.all (fun b => l1.any (monomialEqv b))

/-- `Polynomial.__eq__`: two polynomials are equal iff their monomial sets
are equal. -/
def pyPolynomialEq (p q : Polynomial) : Bool :=
  monomialSetEq p.monomials q.monomials

/-- The union of the weight-dict keys of a monomial into an accumulated
indeterminate sequence (`self.indeterminates.update(monomial.weight_dict.keys())`). -/
def addIndets (acc : List Indeterminate) (d : WDict) : List Indeterminate :=
  d.foldl (fun a kv => if a.contains kv.1 then a else a ++ [kv.1]) acc

/-- `Polynomial.__init__`, last loop: the set of all indeterminates
appearing in the member monomials. -/
def indetsOf (ms : List Monomial) : List Indeterminate :=
  ms.foldl (fun a m => addIndets a m.weight_dict) []

/-- The tail of `Polynomial.__init__` shared by the literal branch and the
internal set branch: drop the monomials with coefficient `0` (a set
comprehension, so every retained monomial is hashed again), fall back to
`{Monomial("0")}` when nothing is left, and collect the indeterminates. -/
def polyInitTail (ms : List Monomial) : Except PyErr Polynomial :=
  match mkPySet (ms.filter (fun m => !(m.coefficient == 0))) with
  | .error e => .error e
  | .ok filtered =>
    let final := if filtered.isEmpty then [zeroMonomial] else filtered
    .ok ⟨final, indetsOf final⟩

/-- `Polynomial.__init__`, internal branch: `poly` is already a set of
monomials; no grammar or repeated-shape check runs, only the common tail. -/
def polynomialFromSet (ms : List Monomial) : Except PyErr Polynomial :=
  polyInitTail ms

/-- One step of the token validation loop of `Polynomial.__init__`: a token
must be `"+"`, `"-"` or a regex-valid monomial, and two sign tokens or two
monomial tokens must not be adjacent.  The source checks, at index `i`, the
token-validity of `tokens[i]` first and then the adjacency of
`(tokens[i], tokens[i+1])`. -/
def validateTokens : List (List Char) → Except PyErr Unit
  | [] => .ok ()
  | t :: rest =>
    let tokIsSign := t = ['+'] || t = ['-']
    if !tokIsSign && !matchMonomialChars t then
      .error (.invalidToken ⟨t⟩)
    else
      match rest with
      | [] => .ok ()
      | t1 :: _ =>
        let tok1IsSign := t1 = ['+'] || t1 = ['-']
        if (tokIsSign && tok1IsSign) ||
            (matchMonomialChars t && matchMonomialChars t1) then
          .error (.invalidSequentialTokens ⟨t⟩ ⟨t1⟩)
        else validateTokens rest

/-- The monomial-building loop of `Polynomial.__init__`: `"+"` clears the
negation flag, `"-"` sets it, and a monomial token is parsed, negated if the
flag is set, and appended (clearing the flag).  The final `else` branch is
the source's unreachable `"Code issue"` raise. -/
def buildMonomialList : List (List Char) → Bool → Except PyErr (List Monomial)
  | [], _ => .ok []
  | t :: rest, negateNext =>
    if t = ['+'] then buildMonomialList rest false
    else if t = ['-'] then buildMonomialList rest true
    else if matchMonomialChars t then
      match monomialInitChars t with
      | .error e => .error e
      | .ok m0 =>
        let m := if negateNext then { m0 with coefficient := -1 * m0.coefficient } else m0
        match buildMonomialList rest false with
        | .error e => .error e
        | .ok tail => .ok (m :: tail)
    else .error .codeIssue

/-- The repeated-shape scan of `Polynomial.__init__`: the first pair
`(i, j)`, `i < j` in scan order, of monomials with Python-equal weight
dicts. -/
def findRepeated : List Monomial → Option (Monomial × Monomial)
  | [] => none
  | m :: rest =>
    match rest.find? (fun n => dictPyEq m.weight_dict n.weight_dict) with
    | some n => some (m, n)
    | none => findRepeated rest

/-- `Polynomial.__init__`, literal branch: split on spaces, validate the
token stream, build the signed monomial list, reject repeated weight-dict
shapes (naming the conflicting pair), convert to a set, and run the common
tail. -/
def polynomialFromLiteral (poly : String) : Except PyErr Polynomial :=
  let tokens := splitOnCh ' ' poly.data
  match validateTokens tokens with
  | .error e => .error e
  | .ok _ =>
    match buildMonomialList tokens false with
    | .error e => .error e
    | .ok monomialList =>
      match findRepeated monomialList with
      | some (m1, m2) => .error (.repeatedMonomials m1 m2)
      | none =>
        match mkPySet monomialList with
        | .error e => .error e
        | .ok ms => polyInitTail ms

/-- `Polynomial("0")`. -/
def zeroPolynomial : Polynomial := ⟨[zeroMonomial], []⟩

/-! ## Monomial arithmetic -/

/-- Python `key in dict`. -/
def containsKey (d : WDict) (k : Indeterminate) : Bool :=
  d.any (fun kv => kv.1 == k)

/-- `dict[k] += v`: add to the value at `k`, keeping its position. -/
def dictAddAt (d : WDict) (k : Indeterminate) (v : Int) : WDict :=
  d.map (fun kv => if kv.1 == k then (kv.1, kv.2 + v) else kv)

/-- `Monomial.__mul__`: start from a fresh zero monomial, set the
coefficient to the product, copy `self`'s weight dict (a key-by-key value
copy into the fresh dict, i.e. the same entry list), then fold `other`'s
entries in, summing exponents of shared keys.  If the combined dict is
nonempty with all exponents `0`, or the coefficient is `0`, the result
collapses to `Monomial(str(coefficient))`, i.e. the bare coefficient with an
empty dict (the re-parse of the float's repr returns the same coefficient;
exact for every float whose repr the grammar accepts, in particular `0.0`). -/
def monomialMul (a b : Monomial) : Monomial :=
  let coefficient := a.coefficient * b.coefficient
  let d := b.weight_dict.foldl
    (fun d kv => if containsKey d kv.1 then dictAddAt d kv.1 kv.2 else d ++ [kv])
    a.weight_dict
  if (!d.isEmpty && d.all (fun kv => kv.2 == 0)) || coefficient == 0 then
    ⟨coefficient, []⟩
  else
    ⟨coefficient, d⟩

/-- Decrement the exponent of `k`, deleting the entry when it reaches `0`
(`new_monomial.weight_dict[wrt] -= 1` followed by the conditional `del`). -/
def dictDecrementDel (d : WDict) (k : Indeterminate) : WDict :=
  (dictAddAt d k (-1)).filter (fun kv => !(kv.1 == k && kv.2 == 0))

/-- `Monomial.derivative(wrt)` with its heap effect.  The source assigns
`new_monomial.weight_dict = self.weight_dict` — the two monomials then SHARE
the dict — and decrements/deletes `wrt` in it.  The first component is the
returned monomial, the second is `self` after the call. -/
def monomialDerivativeFull (m : Monomial) (wrt : Indeterminate) : Monomial × Monomial :=
  if !containsKey m.weight_dict wrt then (zeroMonomial, m)
  else
    let exponent := (m.weight_dict.lookup wrt).getD 0
    let d := dictDecrementDel m.weight_dict wrt
    (⟨m.coefficient * exponent, d⟩, ⟨m.coefficient, d⟩)

/-- The value returned by `Monomial.derivative(wrt)`. -/
def monomialDerivative (m : Monomial) (wrt : Indeterminate) : Monomial :=
  (monomialDerivativeFull m wrt).1

/-! ## Consolidation (`Polynomial._consolidate_monomial_list`)

The source walks the list with a covered-mask: each uncovered monomial
`monomial_list[i]` absorbs (`+=`, in place) the coefficients of all later
monomials with a Python-equal weight dict, marking them covered, and is
added to the result set.  A covered monomial is never mutated and never
read after being absorbed, so the result is: one representative per
weight-dict shape (the first occurrence), carrying the left-fold sum of its
group's original coefficients.  `consolidateFull` returns both the result
sequence (the set, in insertion order) and the post-state of every list
element — the source mutates the monomial objects of the input list in
place, and those objects belong to the operand polynomials. -/

/-- The left-fold coefficient sum a representative accumulates
(`monomial_list[i].coefficient += m2.coefficient` over its group). -/
def groupCoefficient (m : Monomial) (rest : List Monomial) : ℚ :=
  (rest.filter (fun n => dictPyEq n.weight_dict m.weight_dict)).foldl
    (fun a n => a + n.coefficient) m.coefficient

/-- `(seen, l) ↦ (result set, post-states of l)`: `seen` is the prefix of
the full list already processed (used only to decide coveredness). -/
def consolidateFull (seen : List Monomial) : List Monomial → List Monomial × List Monomial
  | [] => ([], [])
  | m :: rest =>
    if seen.any (fun s => dictPyEq s.weight_dict m.weight_dict) then
      let (res, posts) := consolidateFull (seen ++ [m]) rest
      (res, m :: posts)
    else
      let m' : Monomial := ⟨groupCoefficient m rest, m.weight_dict⟩
      let (res, posts) := consolidateFull (seen ++ [m]) rest
      (m' :: res, m' :: posts)

/-- The value `_consolidate_monomial_list` returns (the consolidated set,
in first-occurrence order). -/
def consolidateMonomialList (l : List Monomial) : List Monomial :=
  (consolidateFull [] l).1

/-- The post-states of the input monomial objects after
`_consolidate_monomial_list` (in-place `+=` into the representatives). -/
def consolidatePostStates (l : List Monomial) : List Monomial :=
  (consolidateFull [] l).2

/-! ## Polynomial arithmetic -/

/-- `Polynomial.__add__`: concatenate the two monomial sequences,
consolidate, build the result set (hashing every representative as
`final_monomial_set.add` does), and construct the result polynomial. -/
def polynomialAdd (p q : Polynomial) : Except PyErr Polynomial :=
  match mkPySet (consolidateMonomialList (p.monomials ++ q.monomials)) with
  | .error e => .error e
  | .ok ms => polyInitTail ms

/-- The post-state of the left operand's monomial objects after
`p + q` (consolidation mutates representatives in place, and every
position below `p.monomials.length` of the concatenated list is one of
`p`'s objects). -/
def polynomialAddPostLeft (p q : Polynomial) : List Monomial :=
  (consolidatePostStates (p.monomials ++ q.monomials)).take p.monomials.length

/-- `Polynomial.__sub__` negates the right operand's monomials IN PLACE
(`for m in other.monomials: m.coefficient *= -1`) and then adds.  First
component: the returned polynomial; second: `other` after the call. -/
def polynomialSubFull (p q : Polynomial) : Except PyErr Polynomial × Polynomial :=
  let qNegated : Polynomial :=
    ⟨q.monomials.map (fun m => { m with coefficient := m.coefficient * (-1) }),
      q.indeterminates⟩
  (polynomialAdd p qNegated, qNegated)

/-- The value returned by `p - q`. -/
def polynomialSub (p q : Polynomial) : Except PyErr Polynomial :=
  (polynomialSubFull p q).1

/-- `Polynomial.__mul__`: all pairwise monomial products (left factor
outermost), consolidated and rebuilt. -/
def polynomialMul (p q : Polynomial) : Except PyErr Polynomial :=
  let products := p.monomials.flatMap (fun m1 => q.monomials.map (fun m2 => monomialMul m1 m2))
  match mkPySet (consolidateMonomialList products) with
  | .error e => .error e
  | .ok ms => polyInitTail ms

/-- `Polynomial.__rmul__` (left scalar multiplication): build the constant
polynomial from the scalar's `str()` representation and multiply.  The
numeric repr string is taken as the argument (`str(k)` for the `int`/
`float` scalar `k`). -/
def polynomialRmul (scalarRepr : String) (p : Polynomial) : Except PyErr Polynomial :=
  match polynomialFromLiteral scalarRepr with
  | .error e => .error e
  | .ok kp => polynomialMul kp p

/-- The member loop of `Polynomial.derivative`: differentiate each member,
compare the result against `Monomial("0")` with `__eq__` (which can raise,
see `pyMonomialEq`), and keep the non-zero derivatives in order. -/
def derivativeKeptList (wrt : Indeterminate) : List Monomial → Except PyErr (List Monomial)
  | [] => .ok []
  | m :: rest =>
    let mPrime := monomialDerivative m wrt
    match pyMonomialEq mPrime zeroMonomial with
    | .error e => .error e
    | .ok isZero =>
      match derivativeKeptList wrt rest with
      | .error e => .error e
      | .ok tail => .ok (if isZero then tail else mPrime :: tail)

/-- `Polynomial.derivative(wrt)`: if `wrt` is not among the polynomial's
indeterminates, return `Polynomial("0")`; otherwise differentiate every
member, keep the non-zero derivatives, collect them into a set and
construct the result — no consolidation step runs in this branch. -/
def polynomialDerivative (p : Polynomial) (wrt : Indeterminate) : Except PyErr Polynomial :=
  if !p.indeterminates.contains wrt then
    polynomialFromLiteral "0"
  else
    match derivativeKeptList wrt p.monomials with
    | .error e => .error e
    | .ok kept =>
      match mkPySet kept with
      | .error e => .error e
      | .ok ms => polyInitTail ms

/-! ## Canonical form and the invariants of live Python objects -/

/-- No two members of the list have Python-equal weight dicts. -/
def pairwiseDistinctShapes : List Monomial → Bool
  | [] => true
  | m :: rest =>
    rest.all (fun n => !dictPyEq m.weight_dict n.weight_dict) && pairwiseDistinctShapes rest

/-- The canonical-form invariant of the spec (§3 Polynomial): no two member
monomials share a weight-mapping shape, and either the member set is exactly
the singleton zero monomial (the all-cancelled case) or no member has
coefficient `0`. -/
def isCanonicalForm (p : Polynomial) : Bool :=
  pairwiseDistinctShapes p.monomials &&
    (monomialSetEq p.monomials [zeroMonomial] || p.monomials.all (fun m => !(m.coefficient == 0)))

/-- The keys of a weight dict are pairwise distinct (true of every Python
dict by construction). -/
def distinctKeys : WDict → Bool
  | [] => true
  | kv :: rest => rest.all (fun kv2 => !(kv2.1 == kv.1)) && distinctKeys rest

/-- The structural invariants of a `Monomial` held by any live Python
`Polynomial`: its weight dict has pairwise-distinct keys (a Python dict) and
every stored exponent is positive (exponents enter via the `[1-9]\d*`
grammar, are summed in `__mul__`, and are decremented in `derivative` only
with deletion at `0`). -/
def wfMonomial (m : Monomial) : Bool :=
  distinctKeys m.weight_dict && m.weight_dict.all (fun kv => decide (0 < kv.2))

/-- The invariants of every `Polynomial` object that can exist in a Python
run: its monomial set is non-empty (`__init__` substitutes
`{Monomial("0")}` for an empty set), each member satisfies the `Monomial`
invariants, and each member was hashed when the set holding it was built —
so `monomialKey` succeeds on it. -/
def pyLivePolynomial (p : Polynomial) : Bool :=
  !p.monomials.isEmpty &&
    p.monomials.all (fun m => wfMonomial m && (monomialKey m).isOk)

/-! ## Spec-side definitions (for refinement claims)

The following definitions follow the WORDS of `spec.md` (§4.2 Derivative,
§4.3 Consolidate / Derivative, §4.3 Subtract's `Negate`), to be compared
with the code-derived definitions above. -/

/-- Spec §4.2, Derivative(m, v): if `v` is not a key of `m`'s mapping the
result is the zero monomial; otherwise the coefficient is multiplied by
`v`'s exponent and the exponent is decremented, the key being deleted when
it reaches `0`. -/
def specMonomialDerivative (m : Monomial) (v : Indeterminate) : Monomial :=
  match m.weight_dict.lookup v with
  | none => zeroMonomial
  | some e =>
    ⟨m.coefficient * e,
      if e - 1 = 0 then m.weight_dict.filter (fun kv => !(kv.1 == v))
      else m.weight_dict.map (fun kv => if kv.1 == v then (kv.1, e - 1) else kv)⟩

/-- The zero monomial test (`coefficient 0, empty weight mapping`). -/
def isZeroMonomial (m : Monomial) : Bool :=
  m.coefficient == 0 && m.weight_dict.isEmpty

/-- One representative of every distinct shape, in first-occurrence order:
a shape is kept when no Python-equal shape occurred before it (`seen` is
the already-scanned prefix). -/
def dedupShapesGo (seen : List WDict) : List WDict → List WDict
  | [] => []
  | d :: rest =>
    if seen.any (fun e => dictPyEq e d) then dedupShapesGo (seen ++ [d]) rest
    else d :: dedupShapesGo (seen ++ [d]) rest

/-- One representative of every distinct shape, in first-occurrence order. -/
def dedupShapes (l : List WDict) : List WDict :=
  dedupShapesGo [] l

/-- Spec §4.3, Consolidate(terms): group the monomials by weight-mapping
shape, sum the coefficients within each group, discard every group whose
sum is `0`, and return the singleton zero-monomial set when no group
survives. -/
def specConsolidate (l : List Monomial) : List Monomial :=
  let summed := (dedupShapes (l.map (fun m => m.weight_dict))).map
    (fun d =>
      (⟨((l.filter (fun m => dictPyEq m.weight_dict d)).map (fun m => m.coefficient)).sum,
        d⟩ : Monomial))
  let kept := summed.filter (fun m => !(m.coefficient == 0))
  if kept.isEmpty then [zeroMonomial] else kept

/-- Spec §4.3, Derivative(p, v): if `v ∉ p.indeterminates` the result is the
zero polynomial; otherwise apply the monomial derivative to every term,
discard the zero results, and consolidate the remainder. -/
def specDerivative (p : Polynomial) (v : Indeterminate) : List Monomial :=
  if p.indeterminates.contains v then
    specConsolidate
      ((p.monomials.map (fun m => specMonomialDerivative m v)).filter
        (fun m => !isZeroMonomial m))
  else [zeroMonomial]

/-- Spec §4.3, the `Negate` of Subtract(p, q): a NEW polynomial whose every
term's coefficient is the additive inverse (no mutation of the operand). -/
def specNegate (p : Polynomial) : Polynomial :=
  ⟨p.monomials.map (fun m => ⟨-m.coefficient, m.weight_dict⟩), p.indeterminates⟩

/-- `Polynomial("1")`: the constant-one polynomial. -/
def onePolynomial : Polynomial := ⟨[⟨1, []⟩], []⟩

/-! ## `Polynomial.__hash__` (claim C10)

`Polynomial.__hash__` evaluates `hash((self.indeterminates, self.monomials))`.
Hashing a tuple hashes each component in turn; `self.indeterminates` and
`self.monomials` are built-in `set`s, and CPython raises
`TypeError: unhashable type: 'set'` on hashing any `set`.  The model below
captures which hash computations succeed (hash values themselves are
irrelevant to every claim). -/

/-- The Python objects reachable from `Polynomial.__hash__`'s argument. -/
inductive PyObj where
  | ofMonomial (m : Monomial)
  | ofIndeterminate (v : Indeterminate)
  | tupleObj (elems : List PyObj)
  | setObj (elems : List PyObj)

mutual

/-- Does `hash(obj)` succeed, and with which error does it fail?
A monomial hash evaluates `monomialKey`; an indeterminate hashes its name
string (always succeeds); a tuple hashes its components left to right; a
built-in `set` is unhashable. -/
def pyHashOk : PyObj → Except PyErr Unit
  | .ofMonomial m =>
    match monomialKey m with
    | .error e => .error e
    | .ok _ => .ok ()
  | .ofIndeterminate _ => .ok ()
  | .tupleObj elems => pyHashOkList elems
  | .setObj _ => .error .typeErrorUnhashableSet

/-- Hash a list of objects left to right, stopping at the first failure. -/
def pyHashOkList : List PyObj → Except PyErr Unit
  | [] => .ok ()
  | x :: xs =>
    match pyHashOk x with
    | .error e => .error e
    | .ok _ => pyHashOkList xs

end

/-- `Polynomial.__hash__`: `hash((self.indeterminates, self.monomials))`. -/
def polynomialPyHash (p : Polynomial) : Except PyErr Unit :=
  pyHashOk (.tupleObj
    [.setObj (p.indeterminates.map .ofIndeterminate),
     .setObj (p.monomials.map .ofMonomial)])

/-! ## The exact-number collaborator (`number/real.py`, claim C9) -/

/-- `real.py`, class `Rational`: a numerator/denominator pair of `np.int64`. -/
structure Rational where
  numerator : Int
  denominator : Int
deriving DecidableEq, Repr

/-- `decimal_str[::-1].find(".")`: the index of the first `.` in the
reversed repr string, i.e. the number of characters after the (last) dot —
for `str(np.float64(x))` of a finite float, the number of fractional
digits.  `find` returns `-1` when no dot occurs. -/
def pyReverseFindDot (s : String) : Int :=
  match s.data.reverse.findIdx? (fun c => c = '.') with
  | some i => (i : Int)
  | none => -1

/-- `np.int64(q)` for a float value `q`: truncation toward zero. -/
def ratTruncToInt (q : ℚ) : Int :=
  if 0 ≤ q then ⌊q⌋ else -⌊-q⌋

/-- `Rational.__init__`, the `decimal` branch (`decimal is not None`):
`sig_figs` is `str(decimal)[::-1].find(".")`, the denominator is
`10**sig_figs`, and the numerator is `np.int64(decimal * 10**sig_figs)`.
No reduction step runs in this branch (the GCD division happens only in the
numerator/denominator branch).

`decimalStr` is `str(np.float64(decimal))` and `decimal` the exact value of
the float; the multiplication `decimal * 10**sig_figs` is modelled exactly
(it is exact for every decimal whose scaled value is representable, in
particular for every input appearing in a theorem below). -/
def rationalFromDecimal (decimalStr : String) (decimal : ℚ) : Rational :=
  let sigFigs := pyReverseFindDot decimalStr
  let power : ℚ := (10 : ℚ) ^ sigFigs
  ⟨ratTruncToInt (decimal * power), ratTruncToInt power⟩

/-! # Helper lemmas -/

/-- `Polynomial("0")` evaluates to the zero polynomial. -/
theorem fromLiteral_zero_eq : polynomialFromLiteral "0" = .ok zeroPolynomial := by
  with_unfolding_all rfl

/-- `Polynomial("1")` evaluates to the constant-one polynomial. -/
theorem fromLiteral_one_eq : polynomialFromLiteral "1" = .ok onePolynomial := by
  with_unfolding_all rfl

/-- `dictPyEq` is symmetric. -/
theorem dictPyEq_symm (d1 d2 : WDict) : dictPyEq d1 d2 = dictPyEq d2 d1 := by
  simp only [dictPyEq, Bool.and_comm]

/-- A dict with pairwise-distinct keys is Python-equal to itself. -/
theorem dictPyEq_refl (d : WDict) (h : distinctKeys d = true) : dictPyEq d d = true := by
  have key : ∀ e : WDict, distinctKeys e = true → ∀ kv ∈ e, e.lookup kv.1 = some kv.2 := by
    intro e he
    induction e with
    | nil => intro kv hkv; cases hkv
    | cons a rest ih =>
      simp only [distinctKeys, Bool.and_eq_true, List.all_eq_true] at he
      intro kv hkv
      rcases List.mem_cons.mp hkv with h1 | h1
      · subst h1; simp [List.lookup]
      · have hne : (kv.1 == a.1) = false := by
          have := he.1 kv h1
          simpa using this
        simp [List.lookup, hne, ih he.2 kv h1]
  simp only [dictPyEq, Bool.and_eq_true, List.all_eq_true]
  exact ⟨fun kv hkv => by simp [key d h kv hkv], fun kv hkv => by simp [key d h kv hkv]⟩

/-- A dict with at most one entry has pairwise-distinct keys. -/
theorem distinctKeys_of_len1 (d : WDict) (h : d.length ≤ 1) : distinctKeys d = true := by
  match d, h with
  | [], _ => rfl
  | [kv], _ => simp [distinctKeys]

/-- `List.lookup` in a one-entry dict. -/
theorem lookup_single (a c : Indeterminate) (d : Int) :
    List.lookup a [(c, d)] = if a = c then some d else none := by
  by_cases h : a = c
  · simp [List.lookup, h]
  · have hb : (a == c) = false := beq_eq_false_iff_ne.mpr h
    simp [List.lookup, hb, h]

/-- For dicts with at most one entry, Python dict equality is literal
equality of the entry lists. -/
theorem dictPyEq_len1 (d1 d2 : WDict) (h1 : d1.length ≤ 1) (h2 : d2.length ≤ 1) :
    dictPyEq d1 d2 = true ↔ d1 = d2 := by
  match d1, h1, d2, h2 with
  | [], _, [], _ => simp [dictPyEq]
  | [], _, [(k, v)], _ => simp [dictPyEq, List.lookup]
  | [(k, v)], _, [], _ => simp [dictPyEq, List.lookup]
  | [(k1, v1)], _, [(k2, v2)], _ =>
    by_cases hk : k1 = k2
    · subst hk
      by_cases hv : v1 = v2
      · subst hv; simp [dictPyEq, lookup_single]
      · have hv2 : ¬ v2 = v1 := fun h => hv h.symm
        simp [dictPyEq, lookup_single, hv, hv2]
    · have hk2 : ¬ k2 = k1 := fun h => hk h.symm
      simp [dictPyEq, lookup_single, hk, hk2]

/-- Python-equality to the empty dict forces the empty dict. -/
theorem dictPyEq_nil (d : WDict) (h : dictPyEq d [] = true) : d = [] := by
  cases d with
  | nil => rfl
  | cons kv rest =>
    simp [dictPyEq, List.lookup] at h

/-- A monomial whose dict has at most one entry sorts without error, and
its key is `(coefficient, weight_dict)` itself. -/
theorem monomialKey_len1 (m : Monomial) (h : m.weight_dict.length ≤ 1) :
    monomialKey m = .ok (m.coefficient, m.weight_dict) := by
  match m, h with
  | ⟨c, []⟩, _ => rfl
  | ⟨c, [kv]⟩, _ => rfl

/-- A successful Python insertion keeps one more element, all drawn from the
input plus the inserted one. -/
theorem pyInsertSorted_ok (x : Indeterminate × Int) (l r : List (Indeterminate × Int))
    (h : pyInsertSorted x l = .ok r) : r.length = l.length + 1 ∧ ∀ z ∈ r, z = x ∨ z ∈ l := by
  induction l generalizing r with
  | nil =>
    simp only [pyInsertSorted] at h
    cases h
    simp
  | cons y ys ih =>
    simp only [pyInsertSorted, pyPairLt] at h
    by_cases hk : x.1 = y.1
    · rw [if_pos hk] at h
      cases hlt : decide (x.2 < y.2) with
      | true =>
        rw [hlt] at h
        cases h
        constructor
        · simp
        · intro z hz
          rcases List.mem_cons.mp hz with h1 | h1
          · exact Or.inl h1
          · exact Or.inr h1
      | false =>
        rw [hlt] at h
        cases hrec : pyInsertSorted x ys with
        | error e => rw [hrec] at h; cases h
        | ok r' =>
          rw [hrec] at h
          cases h
          obtain ⟨hlen, hmem⟩ := ih r' hrec
          constructor
          · simp [hlen]
          · intro z hz
            rcases List.mem_cons.mp hz with h1 | h1
            · exact Or.inr (by simp [h1])
            · rcases hmem z h1 with h2 | h2
              · exact Or.inl h2
              · exact Or.inr (List.mem_cons_of_mem _ h2)
    · rw [if_neg hk] at h
      cases h

/-- A successful Python sort is a permutation: same length, members drawn
from the input. -/
theorem pyKeySorted_ok (l s : List (Indeterminate × Int))
    (h : pyKeySorted l = .ok s) : s.length = l.length ∧ ∀ z ∈ s, z ∈ l := by
  induction l generalizing s with
  | nil =>
    simp only [pyKeySorted] at h
    cases h
    simp
  | cons x xs ih =>
    simp only [pyKeySorted, Bind.bind, Except.bind] at h
    cases hrec : pyKeySorted xs with
    | error e => rw [hrec] at h; cases h
    | ok s' =>
      rw [hrec] at h
      obtain ⟨hlen, hmem⟩ := ih s' hrec
      obtain ⟨hlen2, hmem2⟩ := pyInsertSorted_ok x s' s h
      constructor
      · simp [hlen2, hlen]
      · intro z hz
        rcases hmem2 z hz with h1 | h1
        · simp [h1]
        · exact List.mem_cons_of_mem _ (hmem z h1)

/-- Sorting a genuine dict (pairwise-distinct keys) with two or more
entries raises `TypeError`: the first tuple comparison is between tuples
with distinct `Indeterminate` components. -/
theorem pyKeySorted_two_err (x y : Indeterminate × Int) (rest : List (Indeterminate × Int))
    (hk : distinctKeys (x :: y :: rest) = true) :
    (pyKeySorted (x :: y :: rest)).isOk = false := by
  have hstep : pyKeySorted (x :: y :: rest) =
      match pyKeySorted (y :: rest) with
      | .error e => .error e
      | .ok s => pyInsertSorted x s := rfl
  rw [hstep]
  cases hrec : pyKeySorted (y :: rest) with
  | error e => rfl
  | ok s =>
    obtain ⟨hlen, hmem⟩ := pyKeySorted_ok _ _ hrec
    cases s with
    | nil => simp at hlen
    | cons z s' =>
      have hz : z ∈ y :: rest := hmem z (by simp)
      have hne : ¬ (x.1 = z.1) := by
        simp only [distinctKeys, Bool.and_eq_true, List.all_eq_true] at hk
        have := hk.1 z hz
        simp only [Bool.not_eq_true'] at this
        intro hcontra
        rw [beq_eq_false_iff_ne] at this
        exact this hcontra.symm
      show (pyInsertSorted x (z :: s')).isOk = false
      simp only [pyInsertSorted, pyPairLt, Bind.bind, Except.bind, if_neg hne]
      rfl

/-- A monomial held in any Python set (its hash succeeded) whose dict has
pairwise-distinct keys has at most one entry. -/
theorem monomialKey_ok_len1 (m : Monomial) (hd : distinctKeys m.weight_dict = true)
    (h : (monomialKey m).isOk = true) : m.weight_dict.length ≤ 1 := by
  rcases hm : m.weight_dict with _ | ⟨x, _ | ⟨y, rest⟩⟩
  · simp
  · simp
  · exfalso
    rw [hm] at hd
    have herr := pyKeySorted_two_err x y rest hd
    have hstep : monomialKey m =
        match pyKeySorted m.weight_dict with
        | .error e => .error e
        | .ok s => .ok (m.coefficient, s) := rfl
    rw [hstep, hm] at h
    cases hs : pyKeySorted (x :: y :: rest) with
    | error e => rw [hs] at h; cases h
    | ok s => rw [hs] at herr; cases herr

/-- Filtering preserves pairwise distinctness of shapes. -/
theorem pairwiseDistinctShapes_filter (p : Monomial → Bool) (l : List Monomial)
    (h : pairwiseDistinctShapes l = true) : pairwiseDistinctShapes (l.filter p) = true := by
  induction l with
  | nil => simp [pairwiseDistinctShapes]
  | cons m rest ih =>
    simp only [pairwiseDistinctShapes, Bool.and_eq_true, List.all_eq_true] at h
    obtain ⟨hall, hrest⟩ := h
    by_cases hp : p m
    · rw [List.filter_cons_of_pos hp]
      simp only [pairwiseDistinctShapes, Bool.and_eq_true, List.all_eq_true]
      exact ⟨fun n hn => hall n (List.mem_of_mem_filter hn), ih hrest⟩
    · rw [List.filter_cons_of_neg (by simpa using hp)]
      exact ih hrest

/-- Members of a built set come from its input sequence. -/
theorem mkPySet_ok_mem (l s : List Monomial) (h : mkPySet l = .ok s) : ∀ m ∈ s, m ∈ l := by
  induction l generalizing s with
  | nil => simp only [mkPySet] at h; cases h; simp
  | cons m rest ih =>
    simp only [mkPySet] at h
    cases hk : monomialKey m with
    | error e => rw [hk] at h; cases h
    | ok k =>
      rw [hk] at h
      cases hs : mkPySet rest with
      | error e => rw [hs] at h; cases h
      | ok s' =>
        rw [hs] at h
        cases h
        intro z hz
        rcases List.mem_cons.mp hz with h1 | h1
        · simp [h1]
        · exact List.mem_cons_of_mem _ (ih s' hs z (List.mem_of_mem_filter h1))

/-- When a set was built successfully, every input element was hashed
successfully. -/
theorem mkPySet_ok_keys (l s : List Monomial) (h : mkPySet l = .ok s) :
    ∀ m ∈ l, (monomialKey m).isOk = true := by
  induction l generalizing s with
  | nil => intro m hm; cases hm
  | cons m rest ih =>
    simp only [mkPySet] at h
    cases hk : monomialKey m with
    | error e => rw [hk] at h; cases h
    | ok k =>
      rw [hk] at h
      cases hs : mkPySet rest with
      | error e => rw [hs] at h; cases h
      | ok s' =>
        intro z hz
        rcases List.mem_cons.mp hz with h1 | h1
        · subst h1; rw [hk]; rfl
        · exact ih s' hs z h1

/-- Building a set from a sequence of pairwise-distinct shapes preserves
the distinctness. -/
theorem mkPySet_pairwise (l s : List Monomial) (hp : pairwiseDistinctShapes l = true)
    (h : mkPySet l = .ok s) : pairwiseDistinctShapes s = true := by
  induction l generalizing s with
  | nil => simp only [mkPySet] at h; cases h; rfl
  | cons m rest ih =>
    simp only [pairwiseDistinctShapes, Bool.and_eq_true, List.all_eq_true] at hp
    obtain ⟨hall, hrest⟩ := hp
    simp only [mkPySet] at h
    cases hk : monomialKey m with
    | error e => rw [hk] at h; cases h
    | ok k =>
      rw [hk] at h
      cases hs : mkPySet rest with
      | error e => rw [hs] at h; cases h
      | ok s' =>
        rw [hs] at h
        cases h
        simp only [pairwiseDistinctShapes, Bool.and_eq_true, List.all_eq_true]
        constructor
        · intro n hn
          exact hall n (mkPySet_ok_mem rest s' hs n (List.mem_of_mem_filter hn))
        · exact pairwiseDistinctShapes_filter _ _ (ih s' hrest hs)

/-- A sequence of hashable monomials always builds into a set. -/
theorem mkPySet_ok_of_keys (l : List Monomial) (h : ∀ m ∈ l, (monomialKey m).isOk = true) :
    ∃ s, mkPySet l = .ok s := by
  induction l with
  | nil => exact ⟨[], rfl⟩
  | cons m rest ih =>
    obtain ⟨s, hs⟩ := ih (fun z hz => h z (List.mem_cons_of_mem _ hz))
    have hk := h m (by simp)
    cases hkk : monomialKey m with
    | error e => rw [hkk] at hk; cases hk
    | ok k =>
      refine ⟨m :: s.filter (fun n => (monomialKey n).toOption != some k), ?_⟩
      simp only [mkPySet, hkk, hs]

/-- On a sequence of hashable monomials with pairwise-distinct shapes, set
construction is the identity (no element is dropped as a duplicate). -/
theorem mkPySet_id (l : List Monomial) (hlen : ∀ m ∈ l, m.weight_dict.length ≤ 1)
    (hp : pairwiseDistinctShapes l = true) : mkPySet l = .ok l := by
  induction l with
  | nil => rfl
  | cons m rest ih =>
    simp only [pairwiseDistinctShapes, Bool.and_eq_true, List.all_eq_true] at hp
    obtain ⟨hall, hrest⟩ := hp
    have hm := hlen m (by simp)
    have hkey := monomialKey_len1 m hm
    have hres := ih (fun z hz => hlen z (List.mem_cons_of_mem _ hz)) hrest
    simp only [mkPySet, hkey, hres]
    have hfix : rest.filter
        (fun n => (monomialKey n).toOption != some (m.coefficient, m.weight_dict)) = rest := by
      apply List.filter_eq_self.mpr
      intro n hn
      have hnlen := hlen n (List.mem_cons_of_mem _ hn)
      rw [monomialKey_len1 n hnlen]
      simp only [Except.toOption, bne_iff_ne, ne_eq, Option.some.injEq]
      intro hcontra
      have hshape := hall n hn
      have hdeq : dictPyEq m.weight_dict n.weight_dict = true := by
        have hd : n.weight_dict = m.weight_dict := congrArg Prod.snd hcontra
        rw [hd]
        exact dictPyEq_refl _ (distinctKeys_of_len1 _ hm)
      rw [hdeq] at hshape
      cases hshape
    rw [hfix]

/-- Unfolding of the consolidation walk on a cons cell (result component).
The head is skipped when an already-seen monomial has its shape, and
otherwise becomes the representative of its group, carrying the in-place
accumulated coefficient sum. -/
theorem consolidateFull_cons (seen : List Monomial) (m : Monomial) (rest : List Monomial) :
    (consolidateFull seen (m :: rest)).1 =
      if seen.any (fun s => dictPyEq s.weight_dict m.weight_dict) then
        (consolidateFull (seen ++ [m]) rest).1
      else
        (⟨groupCoefficient m rest, m.weight_dict⟩ : Monomial) ::
          (consolidateFull (seen ++ [m]) rest).1 := by
  by_cases h : seen.any (fun s => dictPyEq s.weight_dict m.weight_dict) = true
  · simp [consolidateFull, h]
  · rw [Bool.not_eq_true] at h
    simp [consolidateFull, h]

/-- No representative produced by the consolidation walk shares a shape
with an already-seen monomial. -/
theorem consolidateFull_fst_not_seen (l : List Monomial) : ∀ (seen : List Monomial)
    (r : Monomial), r ∈ (consolidateFull seen l).1 → ∀ s ∈ seen,
    dictPyEq s.weight_dict r.weight_dict = false := by
  induction l with
  | nil => intro seen r hr; simp [consolidateFull] at hr
  | cons m rest ih =>
    intro seen r hr s hs
    rw [consolidateFull_cons] at hr
    by_cases hc : seen.any (fun s => dictPyEq s.weight_dict m.weight_dict) = true
    · rw [if_pos hc] at hr
      exact ih (seen ++ [m]) r hr s (by simp [hs])
    · rw [Bool.not_eq_true] at hc
      rw [if_neg (by simp [hc])] at hr
      rcases List.mem_cons.mp hr with h1 | h1
      · subst h1
        have := List.any_eq_false.mp hc s hs
        simpa using this
      · exact ih (seen ++ [m]) r h1 s (by simp [hs])

/-- The result of consolidation has pairwise-distinct shapes, whatever the
input. -/
theorem consolidateFull_fst_pairwise (l : List Monomial) : ∀ (seen : List Monomial),
    pairwiseDistinctShapes (consolidateFull seen l).1 = true := by
  induction l with
  | nil => intro seen; simp [consolidateFull, pairwiseDistinctShapes]
  | cons m rest ih =>
    intro seen
    rw [consolidateFull_cons]
    by_cases hc : seen.any (fun s => dictPyEq s.weight_dict m.weight_dict) = true
    · rw [if_pos hc]; exact ih (seen ++ [m])
    · rw [Bool.not_eq_true] at hc
      rw [if_neg (by simp [hc])]
      simp only [pairwiseDistinctShapes, Bool.and_eq_true, List.all_eq_true]
      constructor
      · intro n hn
        have := consolidateFull_fst_not_seen rest (seen ++ [m]) n hn m (by simp)
        simpa using this
      · exact ih (seen ++ [m])

/-- A group representative whose shape occurs nowhere else keeps its
original coefficient. -/
theorem groupCoefficient_alone (m : Monomial) (rest : List Monomial)
    (h : ∀ n ∈ rest, dictPyEq n.weight_dict m.weight_dict = false) :
    groupCoefficient m rest = m.coefficient := by
  unfold groupCoefficient
  rw [List.filter_eq_nil_iff.mpr (fun n hn => by simp [h n hn])]
  rfl

/-- Consolidating a list of pairwise-distinct shapes, none seen before, is
the identity. -/
theorem consolidateFull_fst_identity (l : List Monomial) : ∀ (seen : List Monomial),
    pairwiseDistinctShapes l = true →
    (∀ m ∈ l, seen.any (fun s => dictPyEq s.weight_dict m.weight_dict) = false) →
    (consolidateFull seen l).1 = l := by
  induction l with
  | nil => intro seen _ _; rfl
  | cons m rest ih =>
    intro seen hp hseen
    simp only [pairwiseDistinctShapes, Bool.and_eq_true, List.all_eq_true] at hp
    obtain ⟨hall, hrest⟩ := hp
    rw [consolidateFull_cons, if_neg (by simp [hseen m (by simp)])]
    have hsym : ∀ n ∈ rest, dictPyEq n.weight_dict m.weight_dict = false := by
      intro n hn
      rw [dictPyEq_symm]
      simpa using hall n hn
    rw [groupCoefficient_alone m rest hsym]
    have htail : (consolidateFull (seen ++ [m]) rest).1 = rest := by
      apply ih (seen ++ [m]) hrest
      intro n hn
      apply List.any_eq_false.mpr
      intro s hs
      rcases List.mem_append.mp hs with h1 | h1
      · exact List.any_eq_false.mp (hseen n (List.mem_cons_of_mem _ hn)) s h1
      · rcases List.mem_singleton.mp h1 with rfl
        have := hsym n hn
        rw [dictPyEq_symm] at this
        simp [this]
    rw [htail]

/-- Consolidating a list every member of which is already covered yields no
representative. -/
theorem consolidateFull_fst_covered (l : List Monomial) : ∀ (seen : List Monomial),
    (∀ m ∈ l, seen.any (fun s => dictPyEq s.weight_dict m.weight_dict) = true) →
    (consolidateFull seen l).1 = [] := by
  induction l with
  | nil => intro seen _; rfl
  | cons m rest ih =>
    intro seen h
    rw [consolidateFull_cons, if_pos (h m (by simp))]
    apply ih (seen ++ [m])
    intro n hn
    rcases List.any_eq_true.mp (h n (List.mem_cons_of_mem _ hn)) with ⟨s, hs, hds⟩
    exact List.any_eq_true.mpr ⟨s, by simp [hs], hds⟩

/-- In a shape-distinct concatenation, members of the two halves never
share a shape. -/
theorem pairwise_append_cross (l1 l2 : List Monomial)
    (h : pairwiseDistinctShapes (l1 ++ l2) = true) :
    ∀ a ∈ l1, ∀ b ∈ l2, dictPyEq a.weight_dict b.weight_dict = false := by
  induction l1 with
  | nil => intro a ha; cases ha
  | cons m rest ih =>
    simp only [List.cons_append, pairwiseDistinctShapes, Bool.and_eq_true,
      List.all_eq_true] at h
    obtain ⟨hall, hrest⟩ := h
    intro a ha b hb
    rcases List.mem_cons.mp ha with h1 | h1
    · subst h1
      have := hall b (List.mem_append_right _ hb)
      simpa using this
    · exact ih hrest a h1 b hb

/-- The right half of a shape-distinct concatenation is shape-distinct. -/
theorem pairwise_append_right (l1 l2 : List Monomial)
    (h : pairwiseDistinctShapes (l1 ++ l2) = true) :
    pairwiseDistinctShapes l2 = true := by
  induction l1 with
  | nil => exact h
  | cons m rest ih =>
    simp only [List.cons_append, pairwiseDistinctShapes, Bool.and_eq_true,
      List.all_eq_true] at h
    exact ih h.2

/-- The left half of a shape-distinct concatenation is shape-distinct. -/
theorem pairwise_append_left (l1 l2 : List Monomial)
    (h : pairwiseDistinctShapes (l1 ++ l2) = true) :
    pairwiseDistinctShapes l1 = true := by
  induction l1 with
  | nil => rfl
  | cons m rest ih =>
    simp only [List.cons_append, pairwiseDistinctShapes, Bool.and_eq_true,
      List.all_eq_true] at h
    obtain ⟨hall, hrest⟩ := h
    simp only [pairwiseDistinctShapes, Bool.and_eq_true, List.all_eq_true]
    exact ⟨fun n hn => hall n (List.mem_append_left _ hn), ih hrest⟩

/-- Consolidating the concatenation of a shape-distinct list with its
elementwise negation cancels every group to coefficient `0`: the key
computation behind `Add(p, Negate(p)) == Polynomial("0")`.  `processed` is
the prefix of the original list already consumed by the walk. -/
theorem consolidateFull_fst_cancel (pending : List Monomial) :
    ∀ (processed : List Monomial),
    pairwiseDistinctShapes (processed ++ pending) = true →
    (∀ m ∈ processed ++ pending, distinctKeys m.weight_dict = true) →
    (consolidateFull processed
      (pending ++ (processed ++ pending).map
        (fun m => (⟨-m.coefficient, m.weight_dict⟩ : Monomial)))).1
      = pending.map (fun m => (⟨0, m.weight_dict⟩ : Monomial)) := by
  induction pending with
  | nil =>
    intro processed hp hw
    simp only [List.append_nil, List.nil_append, List.map_nil]
    apply consolidateFull_fst_covered
    intro n hn
    obtain ⟨m, hm, rfl⟩ := List.mem_map.mp hn
    apply List.any_eq_true.mpr
    refine ⟨m, hm, ?_⟩
    simpa using dictPyEq_refl _ (hw m (by simp [hm]))
  | cons m rest ih =>
    intro processed hp hw
    have hcross := pairwise_append_cross processed (m :: rest) hp
    have hmrest := pairwise_append_right processed (m :: rest) hp
    have hmhead : ∀ n ∈ rest, dictPyEq m.weight_dict n.weight_dict = false := by
      intro n hn
      simp only [pairwiseDistinctShapes, Bool.and_eq_true, List.all_eq_true] at hmrest
      simpa using hmrest.1 n hn
    have hmwf : distinctKeys m.weight_dict = true := hw m (by simp)
    simp only [List.cons_append]
    rw [consolidateFull_cons]
    have hcov : processed.any (fun s => dictPyEq s.weight_dict m.weight_dict) = false := by
      apply List.any_eq_false.mpr
      intro s hs
      simp [hcross s hs m (by simp)]
    rw [if_neg (by simp [hcov])]
    have hgrp : groupCoefficient m
        (rest ++ (processed ++ m :: rest).map
          (fun n => (⟨-n.coefficient, n.weight_dict⟩ : Monomial)))
        = 0 := by
      unfold groupCoefficient
      rw [List.filter_append]
      rw [List.filter_eq_nil_iff.mpr (fun n hn => by
        have := hmhead n hn
        rw [dictPyEq_symm] at this
        simp [this])]
      rw [List.map_append, List.map_cons, List.filter_append]
      rw [List.filter_eq_nil_iff.mpr (fun n hn => by
        obtain ⟨s, hs, rfl⟩ := List.mem_map.mp hn
        simp [hcross s hs m (by simp)])]
      rw [List.filter_cons_of_pos (by simpa using dictPyEq_refl _ hmwf)]
      rw [List.filter_eq_nil_iff.mpr (fun n hn => by
        obtain ⟨s, hs, rfl⟩ := List.mem_map.mp hn
        have := hmhead s hs
        rw [dictPyEq_symm] at this
        simp [this])]
      simp
    rw [hgrp]
    have hassoc : processed ++ m :: rest = (processed ++ [m]) ++ rest := by
      simp
    have htail : (consolidateFull (processed ++ [m])
        (rest ++ (processed ++ m :: rest).map
          (fun n => (⟨-n.coefficient, n.weight_dict⟩ : Monomial)))).1
        = rest.map (fun n => (⟨0, n.weight_dict⟩ : Monomial)) := by
      rw [hassoc]
      apply ih (processed ++ [m])
      · rw [← hassoc]; exact hp
      · rw [← hassoc]; exact hw
    rw [htail]
    simp

/-- If the repeated-shape scan reports nothing, the shapes are pairwise
distinct. -/
theorem findRepeated_none_pairwise (l : List Monomial) (h : findRepeated l = none) :
    pairwiseDistinctShapes l = true := by
  induction l with
  | nil => rfl
  | cons m rest ih =>
    simp only [findRepeated] at h
    cases hf : rest.find? (fun n => dictPyEq m.weight_dict n.weight_dict) with
    | some n => rw [hf] at h; cases h
    | none =>
      rw [hf] at h
      simp only [pairwiseDistinctShapes, Bool.and_eq_true, List.all_eq_true]
      constructor
      · intro n hn
        have := List.find?_eq_none.mp hf n hn
        simpa using this
      · exact ih h

/-- When two members share a shape, the repeated-shape scan reports a
first conflicting pair, and the two reported monomials do share a shape. -/
theorem findRepeated_some (l : List Monomial) (h : pairwiseDistinctShapes l = false) :
    ∃ m1 m2, findRepeated l = some (m1, m2) ∧
      dictPyEq m1.weight_dict m2.weight_dict = true := by
  induction l with
  | nil => simp [pairwiseDistinctShapes] at h
  | cons m rest ih =>
    simp only [findRepeated]
    cases hf : rest.find? (fun n => dictPyEq m.weight_dict n.weight_dict) with
    | some n =>
      refine ⟨m, n, rfl, ?_⟩
      have := List.find?_some hf
      simpa using this
    | none =>
      have hall : ∀ n ∈ rest, dictPyEq m.weight_dict n.weight_dict = false := by
        intro n hn
        have := List.find?_eq_none.mp hf n hn
        simpa using this
      have hrest : pairwiseDistinctShapes rest = false := by
        cases hb : pairwiseDistinctShapes rest with
        | false => rfl
        | true =>
          exfalso
          have : pairwiseDistinctShapes (m :: rest) = true := by
            simp only [pairwiseDistinctShapes, Bool.and_eq_true, List.all_eq_true]
            exact ⟨fun n hn => by simp [hall n hn], hb⟩
          rw [this] at h
          cases h
      obtain ⟨m1, m2, hfind, hdeq⟩ := ih hrest
      exact ⟨m1, m2, hfind, hdeq⟩

/-- Set equality is reflexive for sets of genuine-dict monomials. -/
theorem monomialSetEq_refl (l : List Monomial)
    (h : ∀ m ∈ l, distinctKeys m.weight_dict = true) : monomialSetEq l l = true := by
  simp only [monomialSetEq, Bool.and_eq_true, List.all_eq_true]
  constructor <;>
  · intro a ha
    apply List.any_eq_true.mpr
    exact ⟨a, ha, by simp [monomialEqv, dictPyEq_refl _ (h a ha)]⟩

/-- The common construction tail produces a canonical polynomial whenever
its input has pairwise-distinct shapes. -/
theorem polyInitTail_canonical (s : List Monomial) (r : Polynomial)
    (hp : pairwiseDistinctShapes s = true) (h : polyInitTail s = .ok r) :
    isCanonicalForm r = true := by
  simp only [polyInitTail] at h
  cases hf : mkPySet (s.filter (fun m => !(m.coefficient == 0))) with
  | error e => rw [hf] at h; cases h
  | ok filtered =>
    rw [hf] at h
    have hpf : pairwiseDistinctShapes filtered = true :=
      mkPySet_pairwise _ filtered (pairwiseDistinctShapes_filter _ _ hp) hf
    have hmem := mkPySet_ok_mem _ _ hf
    cases h
    by_cases he : filtered.isEmpty = true
    · rw [if_pos he]
      decide
    · rw [if_neg he]
      simp only [isCanonicalForm, Bool.and_eq_true]
      refine ⟨hpf, ?_⟩
      have hall : filtered.all (fun m => !(m.coefficient == 0)) = true := by
        apply List.all_eq_true.mpr
        intro n hn
        exact (List.mem_filter.mp (hmem n hn)).2
      rw [hall, Bool.or_true]

/-- The three possible outcomes of `Monomial.derivative` on a one-entry (or
empty) dict: zero when the indeterminate is absent, and otherwise the
coefficient–exponent product with the exponent decremented (entry deleted
at zero). -/
theorem monomialDerivative_len1 (m : Monomial) (v : Indeterminate)
    (h : m.weight_dict.length ≤ 1) :
    (m.weight_dict = [] ∧ monomialDerivative m v = zeroMonomial) ∨
    (∃ k e, m.weight_dict = [(k, e)] ∧ k ≠ v ∧ monomialDerivative m v = zeroMonomial) ∨
    (∃ e, m.weight_dict = [(v, e)] ∧
      monomialDerivative m v =
        ⟨m.coefficient * e, if e - 1 = 0 then [] else [(v, e - 1)]⟩) := by
  match m, h with
  | ⟨c, []⟩, _ =>
    left
    exact ⟨rfl, rfl⟩
  | ⟨c, [(k, e)]⟩, _ =>
    by_cases hk : k = v
    · subst hk
      right; right
      refine ⟨e, rfl, ?_⟩
      have hcont : containsKey [(k, e)] k = true := by simp [containsKey]
      have hlook : List.lookup k [(k, e)] = some e := by simp [List.lookup]
      simp only [monomialDerivative, monomialDerivativeFull, hcont, Bool.not_true,
        Bool.false_eq_true, if_false, hlook, Option.getD_some]
      have hdec : dictDecrementDel [(k, e)] k = if e - 1 = 0 then [] else [(k, e - 1)] := by
        simp only [dictDecrementDel, dictAddAt, List.map_cons, List.map_nil,
          beq_self_eq_true, if_true]
        by_cases hz : e + -1 = 0
        · rw [List.filter_cons_of_neg (by simp [hz])]
          rw [if_pos (by omega)]
          rfl
        · rw [List.filter_cons_of_pos (by simp [hz])]
          rw [if_neg (by omega)]
          simp only [List.filter_nil]
          have : e + -1 = e - 1 := by omega
          rw [this]
      rw [hdec]
    · right; left
      refine ⟨k, e, rfl, hk, ?_⟩
      have hcont : containsKey [(k, e)] v = false := by
        simp [containsKey, beq_eq_false_iff_ne.mpr hk]
      simp [monomialDerivative, monomialDerivativeFull, hcont]

/-- Derivatives of genuine one-entry dicts again have at most one entry. -/
theorem monomialDerivative_len1_dict (m : Monomial) (v : Indeterminate)
    (h : m.weight_dict.length ≤ 1) :
    (monomialDerivative m v).weight_dict.length ≤ 1 := by
  rcases monomialDerivative_len1 m v h with ⟨_, hd⟩ | ⟨k, e, _, _, hd⟩ | ⟨e, _, hd⟩
  · rw [hd]; simp [zeroMonomial]
  · rw [hd]; simp [zeroMonomial]
  · rw [hd]
    by_cases hz : e - 1 = 0
    · simp [hz]
    · simp [hz]

/-- On hashable monomials, `Monomial.__eq__` succeeds and decides
structural equality. -/
theorem pyMonomialEq_len1 (m1 m2 : Monomial) (h1 : m1.weight_dict.length ≤ 1)
    (h2 : m2.weight_dict.length ≤ 1) :
    pyMonomialEq m1 m2 = .ok (decide (m1 = m2)) := by
  simp only [pyMonomialEq, monomialKey_len1 m1 h1, monomialKey_len1 m2 h2]
  congr 1
  by_cases h : m1 = m2
  · subst h
    simp
  · have hne : ¬ ((m1.coefficient, m1.weight_dict) = (m2.coefficient, m2.weight_dict)) := by
      intro hc
      apply h
      cases m1; cases m2
      simp only [Prod.mk.injEq] at hc
      simp [hc.1, hc.2]
    simp [h, hne]

/-- On a list of hashable monomials, the derivative member loop succeeds
and keeps exactly the derivatives that differ from the zero monomial. -/
theorem derivativeKeptList_spec (v : Indeterminate) (l : List Monomial)
    (hlen : ∀ m ∈ l, m.weight_dict.length ≤ 1) :
    derivativeKeptList v l =
      .ok ((l.map (fun m => monomialDerivative m v)).filter
        (fun n => !(decide (n = zeroMonomial)))) := by
  induction l with
  | nil => rfl
  | cons m rest ih =>
    have hm := hlen m (by simp)
    have hdm := monomialDerivative_len1_dict m v hm
    have hz : (zeroMonomial : Monomial).weight_dict.length ≤ 1 := by simp [zeroMonomial]
    simp only [derivativeKeptList, pyMonomialEq_len1 _ _ hdm hz,
      ih (fun z hz2 => hlen z (List.mem_cons_of_mem _ hz2))]
    by_cases h : monomialDerivative m v = zeroMonomial
    · simp [h]
    · simp [h]

/-- Distinct exponents give distinct decremented shapes. -/
theorem derivShape_ne (v : Indeterminate) (e1 e2 : Int) (hne : e1 ≠ e2) :
    ((if e1 - 1 = 0 then ([] : WDict) else [(v, e1 - 1)]) ≠
      (if e2 - 1 = 0 then ([] : WDict) else [(v, e2 - 1)])) := by
  by_cases h1 : e1 - 1 = 0
  · by_cases h2 : e2 - 1 = 0
    · omega
    · simp [h1, h2]
  · by_cases h2 : e2 - 1 = 0
    · simp [h1, h2]
    · simp only [h1, h2, if_false, ne_eq, List.cons.injEq, Prod.mk.injEq]
      intro hc
      exact absurd (by omega : e1 = e2) hne

/-- The kept derivatives of a canonical polynomial's member list have
pairwise-distinct shapes (the derivative of a monomial in a single
variable is injective on shapes containing that variable). -/
theorem kept_derivs_pairwise (v : Indeterminate) (l : List Monomial)
    (hlen : ∀ m ∈ l, m.weight_dict.length ≤ 1)
    (hp : pairwiseDistinctShapes l = true) :
    pairwiseDistinctShapes ((l.map (fun m => monomialDerivative m v)).filter
      (fun n => !(decide (n = zeroMonomial)))) = true := by
  induction l with
  | nil => rfl
  | cons m rest ih =>
    have hm := hlen m (by simp)
    have hrestlen : ∀ z ∈ rest, z.weight_dict.length ≤ 1 :=
      fun z hz => hlen z (List.mem_cons_of_mem _ hz)
    simp only [pairwiseDistinctShapes, Bool.and_eq_true, List.all_eq_true] at hp
    obtain ⟨hall, hrest⟩ := hp
    rw [List.map_cons]
    by_cases hzero : monomialDerivative m v = zeroMonomial
    · rw [List.filter_cons_of_neg (by simp [hzero])]
      exact ih hrestlen hrest
    · rw [List.filter_cons_of_pos (by simp [hzero])]
      simp only [pairwiseDistinctShapes, Bool.and_eq_true, List.all_eq_true]
      refine ⟨?_, ih hrestlen hrest⟩
      intro n hn
      have hnsrc := List.mem_filter.mp hn
      obtain ⟨m2, hm2, hn2⟩ := List.mem_map.mp hnsrc.1
      have hm2len := hrestlen m2 hm2
      have hn2zero : ¬ (n = zeroMonomial) := by simpa using hnsrc.2
      -- the head derivative is non-zero, so the head dict is [(v, e)]
      rcases monomialDerivative_len1 m v hm with ⟨_, hd⟩ | ⟨k, e, _, _, hd⟩ | ⟨e, hdict, hd⟩
      · exact absurd hd hzero
      · exact absurd hd hzero
      · rcases monomialDerivative_len1 m2 v hm2len with ⟨_, hd2⟩ | ⟨k2, e2, _, _, hd2⟩ |
          ⟨e2, hdict2, hd2⟩
        · rw [← hn2] at hn2zero; exact absurd hd2 hn2zero
        · rw [← hn2] at hn2zero; exact absurd hd2 hn2zero
        · have hshapes_ne : e ≠ e2 := by
            intro hc
            have := hall m2 hm2
            rw [hdict, hdict2, hc] at this
            have hrefl := dictPyEq_refl [(v, e2)] (by simp [distinctKeys])
            rw [hrefl] at this
            cases this
          have hne := derivShape_ne v e e2 hshapes_ne
          have hdn : n.weight_dict = if e2 - 1 = 0 then [] else [(v, e2 - 1)] := by
            rw [← hn2, hd2]
          have hdm' : (monomialDerivative m v).weight_dict =
              if e - 1 = 0 then [] else [(v, e - 1)] := by rw [hd]
          rw [Bool.not_eq_true']
          apply (Bool.not_eq_true _).mp
      
          intro hc
          have hlen1 : (monomialDerivative m v).weight_dict.length ≤ 1 :=
            monomialDerivative_len1_dict m v hm
          have hlen2 : n.weight_dict.length ≤ 1 := by
            rw [hdn]
            by_cases hz2 : e2 - 1 = 0
            · simp [hz2]
            · simp [hz2]
          have := (dictPyEq_len1 _ _ hlen1 hlen2).mp hc
          rw [hdm', hdn] at this
          exact hne this

/-- Helper: a pipeline of the shape `mkPySet (consolidate X)` followed by
the construction tail yields a canonical polynomial for every input. -/
theorem consolidated_pipeline_canonical (X : List Monomial) (r : Polynomial)
    (h : (match mkPySet (consolidateMonomialList X) with
      | .error e => (.error e : Except PyErr Polynomial)
      | .ok ms => polyInitTail ms) = .ok r) : isCanonicalForm r = true := by
  cases hms : mkPySet (consolidateMonomialList X) with
  | error e => rw [hms] at h; cases h
  | ok ms =>
    rw [hms] at h
    exact polyInitTail_canonical ms r
      (mkPySet_pairwise _ _ (consolidateFull_fst_pairwise X []) hms) h

/-- Every monomial of a live polynomial has at most one weight-dict entry
(its hash succeeded, and a genuine dict with two distinct keys cannot be
hashed). -/
theorem pyLive_len1 (p : Polynomial) (h : pyLivePolynomial p = true) :
    ∀ m ∈ p.monomials, m.weight_dict.length ≤ 1 := by
  simp only [pyLivePolynomial, Bool.and_eq_true, List.all_eq_true] at h
  intro m hm
  have h2 := h.2 m hm
  simp only [Bool.and_eq_true] at h2
  obtain ⟨hwf, hkey⟩ := h2
  simp only [wfMonomial, Bool.and_eq_true] at hwf
  exact monomialKey_ok_len1 m hwf.1 hkey

/-- C3: Every Polynomial returned by construction from a valid literal or
by an arithmetic operation — Add, Subtract, Multiply, left scalar
multiplication, or derivative (taken, as the class lifecycle guarantees,
on a polynomial whose members are live Python objects with
pairwise-distinct shapes) — is in canonical form: no two member monomials
have equal weight mappings, no member has coefficient 0, and when all
terms cancel the member set is exactly the singleton zero monomial. -/
theorem claim3_constructions_canonical :
    (∀ (s : String) (p : Polynomial),
      polynomialFromLiteral s = .ok p → isCanonicalForm p = true) ∧
    (∀ (p q r : Polynomial), polynomialAdd p q = .ok r → isCanonicalForm r = true) ∧
    (∀ (p q r : Polynomial), polynomialSub p q = .ok r → isCanonicalForm r = true) ∧
    (∀ (p q r : Polynomial), polynomialMul p q = .ok r → isCanonicalForm r = true) ∧
    (∀ (k : String) (p r : Polynomial),
      polynomialRmul k p = .ok r → isCanonicalForm r = true) ∧
    (∀ (p : Polynomial) (v : Indeterminate) (r : Polynomial),
      pyLivePolynomial p = true → pairwiseDistinctShapes p.monomials = true →
      polynomialDerivative p v = .ok r → isCanonicalForm r = true) := by
  have hadd : ∀ (p q r : Polynomial), polynomialAdd p q = .ok r →
      isCanonicalForm r = true := by
    intro p q r h
    exact consolidated_pipeline_canonical (p.monomials ++ q.monomials) r h
  have hmul : ∀ (p q r : Polynomial), polynomialMul p q = .ok r →
      isCanonicalForm r = true := by
    intro p q r h
    exact consolidated_pipeline_canonical _ r h
  refine ⟨?_, hadd, ?_, hmul, ?_, ?_⟩
  · -- literal construction
    intro s p h
    simp only [polynomialFromLiteral] at h
    cases hv : validateTokens (splitOnCh ' ' s.data) with
    | error e => rw [hv] at h; cases h
    | ok u =>
      simp only [hv] at h
      cases hb : buildMonomialList (splitOnCh ' ' s.data) false with
      | error e => simp only [hb] at h; cases h
      | ok ml =>
        simp only [hb] at h
        cases hr : findRepeated ml with
        | some pair =>
          obtain ⟨m1, m2⟩ := pair
          simp only [hr] at h
          cases h
        | none =>
          simp only [hr] at h
          cases hms : mkPySet ml with
          | error e => simp only [hms] at h; cases h
          | ok ms =>
            simp only [hms] at h
            exact polyInitTail_canonical ms p
              (mkPySet_pairwise _ _ (findRepeated_none_pairwise ml hr) hms) h
  · -- subtraction delegates to addition
    intro p q r h
    exact hadd _ _ r h
  · -- left scalar multiplication delegates to multiplication
    intro k p r h
    simp only [polynomialRmul] at h
    cases hk : polynomialFromLiteral k with
    | error e => rw [hk] at h; cases h
    | ok kp =>
      rw [hk] at h
      exact hmul kp p r h
  · -- derivative
    intro p v r hlive hpair h
    simp only [polynomialDerivative] at h
    by_cases hc : (!p.indeterminates.contains v) = true
    · rw [if_pos hc, fromLiteral_zero_eq] at h
      cases h
      decide
    · rw [if_neg hc] at h
      have hlen := pyLive_len1 p hlive
      simp only [derivativeKeptList_spec v p.monomials hlen] at h
      cases hms : mkPySet ((p.monomials.map (fun m => monomialDerivative m v)).filter
          (fun n => !(decide (n = zeroMonomial)))) with
      | error e => simp only [hms] at h; cases h
      | ok ms =>
        simp only [hms] at h
        exact polyInitTail_canonical ms r
          (mkPySet_pairwise _ _ (kept_derivs_pairwise v p.monomials hlen hpair) hms) h

/-- C3 witness: the theorem applied at concrete inputs, discharging each
hypothesis: a literal construction and a derivative of a live canonical
polynomial. -/
theorem claim3_witness :
    isCanonicalForm ⟨[⟨3, [(⟨"x"⟩, 1)]⟩, ⟨-2, []⟩], [⟨"x"⟩]⟩ = true ∧
    isCanonicalForm ⟨[⟨2, [(⟨"x"⟩, 1)]⟩], [⟨"x"⟩]⟩ = true :=
  ⟨claim3_constructions_canonical.1 "3*x - 2" ⟨[⟨3, [(⟨"x"⟩, 1)]⟩, ⟨-2, []⟩], [⟨"x"⟩]⟩
      (by with_unfolding_all rfl),
    claim3_constructions_canonical.2.2.2.2.2 ⟨[⟨1, [(⟨"x"⟩, 2)]⟩], [⟨"x"⟩]⟩ ⟨"x"⟩
      ⟨[⟨2, [(⟨"x"⟩, 1)]⟩], [⟨"x"⟩]⟩ (by with_unfolding_all rfl) (by with_unfolding_all rfl)
      (by with_unfolding_all rfl)⟩

/-- C1 (code bug): monomial parsing is order-independent at the data level
— both orderings of `-5*x^3*y^321*z^8` produce the same coefficient and
the same sorted weight dict — but `Monomial.__eq__` and
`Monomial.__hash__` both evaluate `sorted(weight_dict.items())`, and
`sorted` compares the `Indeterminate` components of the item tuples, which
define no ordering.  Hashing (and equality) therefore raises `TypeError`
for every monomial with two or more indeterminates, contradicting the
claim that hashing succeeds for every constructible Monomial (and
contradicting the repository's own test suite, e.g.
`test_monomial_mul`, which compares multivariate monomials). -/
theorem claim1_multivariate_hash_raises :
    monomialFromLiteral "x*y" = .ok ⟨1, [(⟨"x"⟩, 1), (⟨"y"⟩, 1)]⟩ ∧
    monomialKey ⟨1, [(⟨"x"⟩, 1), (⟨"y"⟩, 1)]⟩ = .error .typeErrorUnorderable ∧
    monomialFromLiteral "-5*x^3*y^321*z^8" =
      .ok ⟨-5, [(⟨"x"⟩, 3), (⟨"y"⟩, 321), (⟨"z"⟩, 8)]⟩ ∧
    monomialFromLiteral "-5*y^321*z^8*x^3" =
      .ok ⟨-5, [(⟨"x"⟩, 3), (⟨"y"⟩, 321), (⟨"z"⟩, 8)]⟩ ∧
    pyMonomialEq ⟨-5, [(⟨"x"⟩, 3), (⟨"y"⟩, 321), (⟨"z"⟩, 8)]⟩
      ⟨-5, [(⟨"x"⟩, 3), (⟨"y"⟩, 321), (⟨"z"⟩, 8)]⟩ = .error .typeErrorUnorderable ∧
    monomialKey ⟨-5, [(⟨"x"⟩, 3), (⟨"y"⟩, 321), (⟨"z"⟩, 8)]⟩ =
      .error .typeErrorUnorderable :=
  ⟨by with_unfolding_all rfl, by with_unfolding_all rfl, by with_unfolding_all rfl,
    by with_unfolding_all rfl, by with_unfolding_all rfl, by with_unfolding_all rfl⟩

/-- C2 (code bug): the arithmetic operations mutate their operands.
`Polynomial.__sub__` negates the right operand's monomial coefficients in
place (`Polynomial("y")`'s member goes from `1` to `-1`);
`Monomial.derivative` assigns `self.weight_dict` to the result by
reference and decrements it, so `Monomial("x^2")`'s own dict becomes
`{x: 1}`; and `_consolidate_monomial_list` accumulates group sums with
`+=` into the left operand's member objects, so after
`Polynomial("x") + Polynomial("2*x")` the left operand's member holds
coefficient `3`. -/
theorem claim2_operations_mutate_operands :
    polynomialFromLiteral "x" = .ok ⟨[⟨1, [(⟨"x"⟩, 1)]⟩], [⟨"x"⟩]⟩ ∧
    polynomialFromLiteral "y" = .ok ⟨[⟨1, [(⟨"y"⟩, 1)]⟩], [⟨"y"⟩]⟩ ∧
    polynomialFromLiteral "2*x" = .ok ⟨[⟨2, [(⟨"x"⟩, 1)]⟩], [⟨"x"⟩]⟩ ∧
    monomialFromLiteral "x^2" = .ok ⟨1, [(⟨"x"⟩, 2)]⟩ ∧
    (polynomialSubFull ⟨[⟨1, [(⟨"x"⟩, 1)]⟩], [⟨"x"⟩]⟩
        ⟨[⟨1, [(⟨"y"⟩, 1)]⟩], [⟨"y"⟩]⟩).2.monomials.map
      (fun m => m.coefficient) = [-1] ∧
    (monomialDerivativeFull ⟨1, [(⟨"x"⟩, 2)]⟩ ⟨"x"⟩).2 = ⟨1, [(⟨"x"⟩, 1)]⟩ ∧
    polynomialAddPostLeft ⟨[⟨1, [(⟨"x"⟩, 1)]⟩], [⟨"x"⟩]⟩
      ⟨[⟨2, [(⟨"x"⟩, 1)]⟩], [⟨"x"⟩]⟩ = [⟨3, [(⟨"x"⟩, 1)]⟩] ∧
    polynomialAdd ⟨[⟨1, [(⟨"x"⟩, 1)]⟩], [⟨"x"⟩]⟩ ⟨[⟨2, [(⟨"x"⟩, 1)]⟩], [⟨"x"⟩]⟩ =
      .ok ⟨[⟨3, [(⟨"x"⟩, 1)]⟩], [⟨"x"⟩]⟩ :=
  ⟨by with_unfolding_all rfl, by with_unfolding_all rfl, by with_unfolding_all rfl,
    by with_unfolding_all rfl, by with_unfolding_all rfl, by with_unfolding_all rfl,
    by with_unfolding_all rfl, by with_unfolding_all rfl⟩

/-- C7 counterexample: `Monomial("asdf1")` does fail with the
malformed-token `ValueError`, but the claim that the error reports the
offending token is false: the raised message is the fixed string
`"Invalid monomial expression!"`, which interpolates nothing. -/
theorem claim7_counterexample :
    monomialFromLiteral "asdf1" = .error .invalidMonomial ∧
    PyErr.invalidMonomial.namesToken "asdf1" = false :=
  ⟨by with_unfolding_all rfl, rfl⟩

/-- C7 (amended): every grammar-invalid literal among `"asdf1"`, `"x^0"`,
`"x^-1"`, `"x2"`, `"1."` fails `Monomial` construction with the
malformed-token validation error, whose fixed message does not name the
offending token (no token string is reported by that error). -/
theorem claim7_malformed_literals_rejected :
    monomialFromLiteral "asdf1" = .error .invalidMonomial ∧
    monomialFromLiteral "x^0" = .error .invalidMonomial ∧
    monomialFromLiteral "x^-1" = .error .invalidMonomial ∧
    monomialFromLiteral "x2" = .error .invalidMonomial ∧
    monomialFromLiteral "1." = .error .invalidMonomial ∧
    (∀ tok : String, PyErr.invalidMonomial.namesToken tok = false) :=
  ⟨by with_unfolding_all rfl, by with_unfolding_all rfl, by with_unfolding_all rfl,
    by with_unfolding_all rfl, by with_unfolding_all rfl, fun _ => rfl⟩

/-- C8 counterexample: constructing an `Indeterminate` with the
digit-leading name `"1x"` does not fail — `Indeterminate.__init__`
performs no validation and stores the name as given. -/
theorem claim8_counterexample : indeterminateInit "1x" = .ok ⟨"1x"⟩ := rfl

/-- C8 (amended): `Indeterminate` construction accepts every name without
any validation, storing it unchanged; the monomial parser itself can and
does create digit-leading indeterminate names, e.g. the grammar-valid
literal `"2x"` (digits then letters, no `*`) parses to coefficient `1`
with the single indeterminate named `"2x"`. -/
theorem claim8_no_validation :
    (∀ name : String, indeterminateInit name = .ok ⟨name⟩) ∧
    monomialFromLiteral "2x" = .ok ⟨1, [(⟨"2x"⟩, 1)]⟩ :=
  ⟨fun _ => rfl, by with_unfolding_all rfl⟩

/-- C9 counterexample: `Rational(decimal=2.5)` stores numerator `25` and
denominator `10` — whose gcd is `5`, not `1` — refuting the claim that the
decimal constructor reduces the fraction to coprime form.  (The
repository's own tests agree with the code: they expect `3.14 ↦ 314/100`.) -/
theorem claim9_counterexample :
    rationalFromDecimal "2.5" (5/2) = ⟨25, 10⟩ ∧ Int.gcd 25 10 = 5 :=
  ⟨by with_unfolding_all rfl, by decide⟩

/-- Truncation of an integer value is that integer. -/
theorem ratTruncToInt_intCast (m : Int) : ratTruncToInt (m : ℚ) = m := by
  unfold ratTruncToInt
  by_cases h : (0 : ℚ) ≤ (m : ℚ)
  · rw [if_pos h, Int.floor_intCast]
  · rw [if_neg h, ← Int.cast_neg, Int.floor_intCast]
    omega

/-- C9 (amended): the decimal constructor derives the denominator
`10^k` from the number `k` of fractional digits of the repr string and
stores numerator `decimal·10^k` WITHOUT reducing: the stored pair need not
be coprime (e.g. `2.5 ↦ 25/10`). -/
theorem claim9_decimal_unreduced (s : String) (v : ℚ) (k : ℕ) (m : Int)
    (hk : pyReverseFindDot s = (k : Int)) (hm : v * (10 : ℚ) ^ k = (m : ℚ)) :
    rationalFromDecimal s v = ⟨m, (10 : ℤ) ^ k⟩ := by
  simp only [rationalFromDecimal, hk]
  have hpow : (10 : ℚ) ^ (k : Int) = (((10 : ℤ) ^ k : ℤ) : ℚ) := by
    rw [zpow_natCast]
    push_cast
    ring
  rw [hpow]
  have hv : v * (((10 : ℤ) ^ k : ℤ) : ℚ) = (m : ℚ) := by
    rw [← hm]
    congr 1
    push_cast
    ring
  rw [hv, ratTruncToInt_intCast, ratTruncToInt_intCast]

/-- C9 witness: the amended theorem applied at `2.5` (one fractional
digit, exact scaled value `25`). -/
theorem claim9_witness : rationalFromDecimal "2.5" (5/2) = ⟨25, 10⟩ := by
  have := claim9_decimal_unreduced "2.5" (5/2) 1 25 (by with_unfolding_all rfl) (by norm_num)
  simpa using this

/-- C10: `Polynomial.__hash__` evaluates
`hash((self.indeterminates, self.monomials))`; hashing the tuple hashes
its components, and both components are built-in `set`s, which CPython
cannot hash.  Every call therefore raises
`TypeError: unhashable type: 'set'` — no Polynomial can be stored in a set
or used as a dict key, despite `__hash__` being defined. -/
theorem claim10_polynomial_hash_raises (p : Polynomial) :
    polynomialPyHash p = .error .typeErrorUnhashableSet := by
  simp [polynomialPyHash, pyHashOk, pyHashOkList]

/-- C6: any polynomial literal whose token stream validates and whose
parsed (sign-applied) monomials contain two entries with Python-equal
weight dicts — whatever their coefficients — fails construction with the
repeated-monomials validation error, which names a conflicting pair; the
internal set constructor performs no such check and succeeds on every
existing set of monomials, deduplicated or sharing shapes. -/
theorem claim6_repeated_shapes_rejected :
    (∀ (s : String) (ml : List Monomial),
      validateTokens (splitOnCh ' ' s.data) = .ok () →
      buildMonomialList (splitOnCh ' ' s.data) false = .ok ml →
      pairwiseDistinctShapes ml = false →
      ∃ m1 m2, polynomialFromLiteral s = .error (.repeatedMonomials m1 m2) ∧
        dictPyEq m1.weight_dict m2.weight_dict = true) ∧
    (∀ l : List Monomial, mkPySet l = .ok l → ∃ p, polynomialFromSet l = .ok p) := by
  constructor
  · intro s ml hv hb hdup
    obtain ⟨m1, m2, hfind, hdeq⟩ := findRepeated_some ml hdup
    refine ⟨m1, m2, ?_, hdeq⟩
    simp only [polynomialFromLiteral, hv, hb, hfind]
  · intro l hok
    have hkeys := mkPySet_ok_keys l l hok
    have hfkeys : ∀ m ∈ l.filter (fun m => !(m.coefficient == 0)),
        (monomialKey m).isOk = true :=
      fun m hm => hkeys m (List.mem_of_mem_filter hm)
    obtain ⟨s, hs⟩ := mkPySet_ok_of_keys _ hfkeys
    refine ⟨⟨if s.isEmpty then [zeroMonomial] else s,
      indetsOf (if s.isEmpty then [zeroMonomial] else s)⟩, ?_⟩
    simp only [polynomialFromSet, polyInitTail, hs]

/-- C6 witness: the literal `"x + 1.0*x"` (same shape, a sign and a unit
coefficient apart) is rejected naming the pair, while the internal
constructor accepts an existing set with two same-shape members. -/
theorem claim6_witness :
    (∃ m1 m2, polynomialFromLiteral "x + 1.0*x" = .error (.repeatedMonomials m1 m2) ∧
      dictPyEq m1.weight_dict m2.weight_dict = true) ∧
    (∃ p, polynomialFromSet [⟨1, [(⟨"x"⟩, 1)]⟩, ⟨2, [(⟨"x"⟩, 1)]⟩] = .ok p) :=
  ⟨claim6_repeated_shapes_rejected.1 "x + 1.0*x" [⟨1, [(⟨"x"⟩, 1)]⟩, ⟨1, [(⟨"x"⟩, 1)]⟩]
      (by with_unfolding_all rfl) (by with_unfolding_all rfl) (by with_unfolding_all rfl),
    claim6_repeated_shapes_rejected.2 _ (by with_unfolding_all rfl)⟩

/-- Python-dict-equality to the zero monomial's dict plus coefficient
equality forces the zero monomial itself. -/
theorem setEq_zero_singleton (l : List Monomial) (hp : pairwiseDistinctShapes l = true)
    (h : monomialSetEq l [zeroMonomial] = true) : l = [zeroMonomial] := by
  simp only [monomialSetEq, Bool.and_eq_true, List.all_eq_true] at h
  obtain ⟨h1, h2⟩ := h
  have hmem : ∀ a ∈ l, a = zeroMonomial := by
    intro a ha
    have := h1 a ha
    simp only [List.any_cons, List.any_nil, Bool.or_false] at this
    simp only [monomialEqv, Bool.and_eq_true, beq_iff_eq] at this
    obtain ⟨hc, hd⟩ := this
    have hdn := dictPyEq_nil _ hd
    cases a
    simp_all [zeroMonomial]
  cases l with
  | nil =>
    have := h2 zeroMonomial (by simp)
    simp at this
  | cons a rest =>
    have ha := hmem a (by simp)
    subst ha
    cases rest with
    | nil => rfl
    | cons b rest2 =>
      exfalso
      have hb := hmem b (by simp)
      subst hb
      simp [pairwiseDistinctShapes, dictPyEq, zeroMonomial] at hp

/-- A shape-preserving transformation preserves pairwise distinctness. -/
theorem pairwise_map_shapes (f : Monomial → Monomial)
    (hf : ∀ m, (f m).weight_dict = m.weight_dict) (l : List Monomial)
    (h : pairwiseDistinctShapes l = true) : pairwiseDistinctShapes (l.map f) = true := by
  induction l with
  | nil => rfl
  | cons m rest ih =>
    simp only [pairwiseDistinctShapes, Bool.and_eq_true, List.all_eq_true] at h
    obtain ⟨hall, hrest⟩ := h
    simp only [List.map_cons, pairwiseDistinctShapes, Bool.and_eq_true, List.all_eq_true]
    constructor
    · intro n hn
      obtain ⟨m2, hm2, rfl⟩ := List.mem_map.mp hn
      rw [hf, hf]
      exact hall m2 hm2
    · exact ih hrest

/-- Multiplying by the constant-one monomial returns the same value when
the operand has positive exponents and a non-zero coefficient. -/
theorem monomialMul_one (m : Monomial)
    (hpos : ∀ kv ∈ m.weight_dict, 0 < kv.2) (hc : ¬(m.coefficient = 0)) :
    monomialMul m ⟨1, []⟩ = m := by
  simp only [monomialMul, List.foldl_nil]
  have hcond1 : (!m.weight_dict.isEmpty && m.weight_dict.all (fun kv => kv.2 == 0)) = false := by
    cases hd : m.weight_dict with
    | nil => simp
    | cons kv rest =>
      have hpos2 := hpos kv (by simp [hd])
      have : (kv.2 == 0) = false := by
        rw [beq_eq_false_iff_ne]
        omega
      simp [this]
  have hcond2 : (m.coefficient * 1 == 0) = false := by
    rw [beq_eq_false_iff_ne]
    simpa using hc
  rw [hcond1, hcond2]
  simp

/-- Multiplying the zero monomial by the constant-one monomial collapses
to the zero monomial. -/
theorem monomialMul_zero_one : monomialMul zeroMonomial ⟨1, []⟩ = zeroMonomial := by
  with_unfolding_all rfl

/-- Flat-mapping into singletons is mapping. -/
theorem flatMap_one (l : List Monomial) (f : Monomial → Monomial) :
    l.flatMap (fun m => [f m]) = l.map f := by
  induction l with
  | nil => rfl
  | cons a t ih => simp [ih]

/-- The construction tail maps an all-zero-coefficient list to the zero
polynomial. -/
theorem polyInitTail_all_zero (Z : List Monomial)
    (h : ∀ n ∈ Z, n.coefficient = 0) : polyInitTail Z = .ok zeroPolynomial := by
  have hfilter : Z.filter (fun m => !(m.coefficient == 0)) = [] :=
    List.filter_eq_nil_iff.mpr (fun n hn => by simp [h n hn])
  unfold polyInitTail
  rw [hfilter]
  rfl

/-- The construction tail is the identity on a non-empty hashable list of
distinct shapes and non-zero coefficients. -/
theorem polyInitTail_id (l : List Monomial)
    (hlen : ∀ m ∈ l, m.weight_dict.length ≤ 1)
    (hp : pairwiseDistinctShapes l = true)
    (hnz : ∀ m ∈ l, ¬(m.coefficient = 0))
    (hne : l ≠ []) :
    polyInitTail l = .ok ⟨l, indetsOf l⟩ := by
  have hfilter : l.filter (fun m => !(m.coefficient == 0)) = l :=
    List.filter_eq_self.mpr (fun n hn => by simp [hnz n hn])
  unfold polyInitTail
  rw [hfilter, mkPySet_id l hlen hp]
  have hemp : l.isEmpty = false := by
    cases l with
    | nil => exact absurd rfl hne
    | cons a t => rfl
  simp [hemp]

/-- C5: for every live canonical Polynomial `p`, adding `p` to its (fresh,
spec-described) negation yields the zero polynomial,
`Add(p, Negate(p)) == Polynomial("0")`, and multiplying `p` by the
constant-one polynomial yields a polynomial equal to `p`,
`Multiply(p, Polynomial("1")) == p`. -/
theorem claim5_zero_and_identity_laws (p : Polynomial)
    (hcanon : isCanonicalForm p = true) (hlive : pyLivePolynomial p = true) :
    (polynomialFromLiteral "0" = .ok zeroPolynomial ∧
      ∃ r, polynomialAdd p (specNegate p) = .ok r ∧
        pyPolynomialEq r zeroPolynomial = true) ∧
    (polynomialFromLiteral "1" = .ok onePolynomial ∧
      ∃ r, polynomialMul p onePolynomial = .ok r ∧ pyPolynomialEq r p = true) := by
  have hlen := pyLive_len1 p hlive
  have hwfd : ∀ m ∈ p.monomials, distinctKeys m.weight_dict = true :=
    fun m hm => distinctKeys_of_len1 _ (hlen m hm)
  simp only [isCanonicalForm, Bool.and_eq_true] at hcanon
  obtain ⟨hpair, hor⟩ := hcanon
  have hne : p.monomials ≠ [] := by
    simp only [pyLivePolynomial, Bool.and_eq_true] at hlive
    intro hc
    rw [hc] at hlive
    simp at hlive
  constructor
  · refine ⟨fromLiteral_zero_eq, zeroPolynomial, ?_, by decide⟩
    have hcons : consolidateMonomialList (p.monomials ++ (specNegate p).monomials) =
        p.monomials.map (fun m => (⟨0, m.weight_dict⟩ : Monomial)) := by
      have := consolidateFull_fst_cancel p.monomials []
        (by simpa using hpair) (by simpa using hwfd)
      simpa [specNegate, consolidateMonomialList] using this
    have hZlen : ∀ n ∈ p.monomials.map (fun m => (⟨0, m.weight_dict⟩ : Monomial)),
        n.weight_dict.length ≤ 1 := by
      intro n hn
      obtain ⟨m, hm, rfl⟩ := List.mem_map.mp hn
      exact hlen m hm
    have hZpair : pairwiseDistinctShapes
        (p.monomials.map (fun m => (⟨0, m.weight_dict⟩ : Monomial))) = true :=
      pairwise_map_shapes (fun m => (⟨0, m.weight_dict⟩ : Monomial)) (fun m => rfl) _ hpair
    have hZzero : ∀ n ∈ p.monomials.map (fun m => (⟨0, m.weight_dict⟩ : Monomial)),
        n.coefficient = 0 := by
      intro n hn
      obtain ⟨m, hm, rfl⟩ := List.mem_map.mp hn
      rfl
    unfold polynomialAdd
    rw [hcons, mkPySet_id _ hZlen hZpair]
    exact polyInitTail_all_zero _ hZzero
  · refine ⟨fromLiteral_one_eq, ?_⟩
    have hprod : (p.monomials.flatMap
        (fun m1 => (onePolynomial.monomials).map (fun m2 => monomialMul m1 m2))) =
        p.monomials.map (fun m => monomialMul m ⟨1, []⟩) := by
      simp only [onePolynomial, List.map_cons, List.map_nil]
      exact flatMap_one _ _
    simp only [Bool.or_eq_true] at hor
    cases hor with
    | inl hzero =>
      have hl := setEq_zero_singleton p.monomials hpair hzero
      refine ⟨zeroPolynomial, ?_, ?_⟩
      · simp only [polynomialMul]
        rw [hprod, hl]
        with_unfolding_all rfl
      · simp only [pyPolynomialEq, hl]
        decide
    | inr hnz' =>
      have hnz : ∀ m ∈ p.monomials, ¬(m.coefficient = 0) := by
        intro m hm
        have := List.all_eq_true.mp hnz' m hm
        simpa using this
      have hpos : ∀ m ∈ p.monomials, ∀ kv ∈ m.weight_dict, 0 < kv.2 := by
        simp only [pyLivePolynomial, Bool.and_eq_true, List.all_eq_true] at hlive
        intro m hm kv hkv
        have := hlive.2 m hm
        simp only [Bool.and_eq_true, wfMonomial, List.all_eq_true] at this
        have := this.1.2 kv hkv
        simpa using this
      have hmapid : p.monomials.map (fun m => monomialMul m ⟨1, []⟩) = p.monomials := by
        have hcongr : p.monomials.map (fun m => monomialMul m ⟨1, []⟩) =
            p.monomials.map id :=
          List.map_congr_left (fun m hm => monomialMul_one m (hpos m hm) (hnz m hm))
        rw [hcongr, List.map_id]
      have hconsid : consolidateMonomialList p.monomials = p.monomials := by
        unfold consolidateMonomialList
        exact consolidateFull_fst_identity p.monomials [] hpair (fun m hm => rfl)
      refine ⟨⟨p.monomials, indetsOf p.monomials⟩, ?_, ?_⟩
      · simp only [polynomialMul]
        rw [hprod, hmapid, hconsid, mkPySet_id _ hlen hpair]
        exact polyInitTail_id p.monomials hlen hpair hnz hne
      · exact monomialSetEq_refl _ hwfd

/-- C5 witness: the theorem applied to the live canonical polynomial
`x + 2`. -/
theorem claim5_witness :
    (polynomialFromLiteral "0" = .ok zeroPolynomial ∧
      ∃ r, polynomialAdd ⟨[⟨1, [(⟨"x"⟩, 1)]⟩, ⟨2, []⟩], [⟨"x"⟩]⟩
          (specNegate ⟨[⟨1, [(⟨"x"⟩, 1)]⟩, ⟨2, []⟩], [⟨"x"⟩]⟩) = .ok r ∧
        pyPolynomialEq r zeroPolynomial = true) ∧
    (polynomialFromLiteral "1" = .ok onePolynomial ∧
      ∃ r, polynomialMul ⟨[⟨1, [(⟨"x"⟩, 1)]⟩, ⟨2, []⟩], [⟨"x"⟩]⟩ onePolynomial = .ok r ∧
        pyPolynomialEq r ⟨[⟨1, [(⟨"x"⟩, 1)]⟩, ⟨2, []⟩], [⟨"x"⟩]⟩ = true) :=
  claim5_zero_and_identity_laws ⟨[⟨1, [(⟨"x"⟩, 1)]⟩, ⟨2, []⟩], [⟨"x"⟩]⟩
    (by with_unfolding_all rfl) (by with_unfolding_all rfl)

/-- On genuine one-entry dicts, the spec's monomial derivative description
coincides with the code's. -/
theorem specMonomialDerivative_eq (m : Monomial) (v : Indeterminate)
    (h : m.weight_dict.length ≤ 1) :
    specMonomialDerivative m v = monomialDerivative m v := by
  match m, h with
  | ⟨c, []⟩, _ => rfl
  | ⟨c, [(k, e)]⟩, _ =>
    by_cases hk : k = v
    · subst hk
      have hlook : List.lookup k [(k, e)] = some e := by simp [List.lookup]
      rcases monomialDerivative_len1 ⟨c, [(k, e)]⟩ k (by simp) with ⟨hd, _⟩ |
        ⟨k2, e2, _, hk2, _⟩ | ⟨e2, hd2, hcode⟩
      · cases hd
      · simp only [List.cons.injEq, Prod.mk.injEq] at *
        tauto
      · have he : e2 = e := by
          simp only [List.cons.injEq, Prod.mk.injEq] at hd2
          exact hd2.1.2.symm
        subst he
        rw [hcode]
        simp only [specMonomialDerivative, hlook]
        by_cases hz : e2 - 1 = 0
        · simp [hz]
        · simp [hz]
    · have hlook : List.lookup v [(k, e)] = none := by
        have : (v == k) = false := beq_eq_false_iff_ne.mpr (fun hh => hk hh.symm)
        simp [List.lookup, this]
      rcases monomialDerivative_len1 ⟨c, [(k, e)]⟩ v (by simp) with ⟨hd, _⟩ |
        ⟨k2, e2, _, _, hcode⟩ | ⟨e2, hd2, _⟩
      · cases hd
      · rw [hcode]
        simp [specMonomialDerivative, hlook]
      · exfalso
        simp only [List.cons.injEq, Prod.mk.injEq] at hd2
        exact hk hd2.1.1

/-- The zero-monomial test is decidable equality with the zero monomial. -/
theorem isZeroMonomial_eq (n : Monomial) :
    isZeroMonomial n = decide (n = zeroMonomial) := by
  cases n with
  | mk c d =>
    by_cases hc : c = 0
    · cases d with
      | nil => subst hc; simp [isZeroMonomial, zeroMonomial]
      | cons kv rest =>
        subst hc
        simp [isZeroMonomial, zeroMonomial]
    · simp [isZeroMonomial, zeroMonomial, hc]

/-- In a pairwise-shape-distinct list of genuine dicts, filtering by
same-shape-as-a-member yields exactly that member. -/
theorem filter_sameShape_single (D : List Monomial)
    (hwfd : ∀ m ∈ D, distinctKeys m.weight_dict = true)
    (hp : pairwiseDistinctShapes D = true) :
    ∀ m ∈ D, D.filter (fun n => dictPyEq n.weight_dict m.weight_dict) = [m] := by
  induction D with
  | nil => intro m hm; cases hm
  | cons a rest ih =>
    intro m hm
    simp only [pairwiseDistinctShapes, Bool.and_eq_true, List.all_eq_true] at hp
    obtain ⟨hall, hrest⟩ := hp
    rcases List.mem_cons.mp hm with rfl | hm2
    · rw [List.filter_cons_of_pos (by simpa using dictPyEq_refl _ (hwfd m (by simp)))]
      have : rest.filter (fun n => dictPyEq n.weight_dict m.weight_dict) = [] := by
        apply List.filter_eq_nil_iff.mpr
        intro n hn
        have := hall n hn
        rw [Bool.not_eq_true'] at this
        rw [dictPyEq_symm] at this
        simp [this]
      rw [this]
    · have hne : dictPyEq a.weight_dict m.weight_dict = false := by
        have := hall m hm2
        rw [Bool.not_eq_true'] at this
        exact this
      rw [List.filter_cons_of_neg (by simp [hne])]
      exact ih (fun z hz => hwfd z (List.mem_cons_of_mem _ hz)) hrest m hm2

/-- The grouping-and-summing stage of the spec's Consolidate is the
identity on a pairwise-shape-distinct list of genuine dicts (every group
is a singleton). -/
theorem specGroups_id (T : List Monomial) : ∀ (seen : List WDict) (B : List Monomial),
    pairwiseDistinctShapes T = true →
    (∀ m ∈ T, seen.any (fun e => dictPyEq e m.weight_dict) = false) →
    (∀ m ∈ T, B.filter (fun n => dictPyEq n.weight_dict m.weight_dict) = [m]) →
    (dedupShapesGo seen (T.map (fun m => m.weight_dict))).map
      (fun d => (⟨((B.filter (fun n => dictPyEq n.weight_dict d)).map
        (fun n => n.coefficient)).sum, d⟩ : Monomial)) = T := by
  induction T with
  | nil => intro seen B _ _ _; rfl
  | cons m rest ih =>
    intro seen B hp hseen hB
    simp only [pairwiseDistinctShapes, Bool.and_eq_true, List.all_eq_true] at hp
    obtain ⟨hall, hrest⟩ := hp
    simp only [List.map_cons, dedupShapesGo, hseen m (by simp), Bool.false_eq_true,
      if_false]
    have hhead : (⟨((B.filter (fun n =>
        dictPyEq n.weight_dict m.weight_dict)).map (fun n => n.coefficient)).sum,
        m.weight_dict⟩ : Monomial) = m := by
      rw [hB m (by simp)]
      simp
    rw [hhead]
    have htail := ih (seen ++ [m.weight_dict]) B hrest
      (by
        intro n hn
        rw [List.any_append]
        rw [hseen n (List.mem_cons_of_mem _ hn)]
        simp only [List.any_cons, List.any_nil, Bool.or_false, Bool.false_or]
        have := hall n hn
        rw [Bool.not_eq_true'] at this
        exact this)
      (fun n hn => hB n (List.mem_cons_of_mem _ hn))
    rw [htail]

/-- Spec Consolidate on a pairwise-shape-distinct list of genuine dicts:
drop the zero coefficients, fall back to the zero singleton. -/
theorem specConsolidate_identity (D : List Monomial)
    (hwfd : ∀ m ∈ D, distinctKeys m.weight_dict = true)
    (hp : pairwiseDistinctShapes D = true) :
    specConsolidate D = (if (D.filter (fun m => !(m.coefficient == 0))).isEmpty
      then [zeroMonomial] else D.filter (fun m => !(m.coefficient == 0))) := by
  have hgroups := specGroups_id D [] D hp (fun m hm => rfl)
    (filter_sameShape_single D hwfd hp)
  simp only [specConsolidate, dedupShapes]
  rw [hgroups]

/-- Value of the common construction tail on a hashable pairwise-distinct
list: drop the zero coefficients, fall back to the zero singleton, collect
the indeterminates. -/
theorem polyInitTail_val (l : List Monomial)
    (hlen : ∀ m ∈ l, m.weight_dict.length ≤ 1)
    (hp : pairwiseDistinctShapes l = true) :
    polyInitTail l = .ok
      ⟨if (l.filter (fun m => !(m.coefficient == 0))).isEmpty then [zeroMonomial]
        else l.filter (fun m => !(m.coefficient == 0)),
       indetsOf (if (l.filter (fun m => !(m.coefficient == 0))).isEmpty
        then [zeroMonomial] else l.filter (fun m => !(m.coefficient == 0)))⟩ := by
  unfold polyInitTail
  rw [mkPySet_id (l.filter (fun m => !(m.coefficient == 0)))
    (fun m hm => hlen m (List.mem_of_mem_filter hm))
    (pairwiseDistinctShapes_filter _ l hp)]

/-- C4: For a live, canonical-shape Polynomial `p`: if `v` is not among
`p`'s indeterminates `p.derivative(v)` is the zero polynomial, and
otherwise it equals (as a monomial set) the spec's description — monomial
derivative applied to every term, zero results discarded, remainder
consolidated.  (On reachable polynomials distinct terms never
differentiate to the same shape, so the code's missing consolidation step
is harmless.) -/
theorem claim4_derivative_refines_spec (p : Polynomial) (v : Indeterminate)
    (hlive : pyLivePolynomial p = true)
    (hshapes : pairwiseDistinctShapes p.monomials = true) :
    (p.indeterminates.contains v = false →
      polynomialDerivative p v = .ok zeroPolynomial) ∧
    (∀ r, polynomialDerivative p v = .ok r →
      monomialSetEq r.monomials (specDerivative p v) = true) := by
  have hlen := pyLive_len1 p hlive
  by_cases hc : p.indeterminates.contains v = true
  · constructor
    · intro hfalse
      rw [hc] at hfalse
      cases hfalse
    · intro r hr
      have hk := derivativeKeptList_spec v p.monomials hlen
      have hKlen : ∀ n ∈ (p.monomials.map (fun m => monomialDerivative m v)).filter
          (fun n => !(decide (n = zeroMonomial))), n.weight_dict.length ≤ 1 := by
        intro n hn
        have hn2 := List.mem_of_mem_filter hn
        rcases List.mem_map.mp hn2 with ⟨m, hm, hmn⟩
        rw [← hmn]
        exact monomialDerivative_len1_dict m v (hlen m hm)
      have hkp := kept_derivs_pairwise v p.monomials hlen hshapes
      simp only [polynomialDerivative, hc, Bool.not_true, Bool.false_eq_true,
        if_false, hk, mkPySet_id _ hKlen hkp,
        polyInitTail_val _ hKlen hkp] at hr
      cases hr
      have hmapeq : p.monomials.map (fun m => specMonomialDerivative m v) =
          p.monomials.map (fun m => monomialDerivative m v) :=
        List.map_congr_left (fun m hm => specMonomialDerivative_eq m v (hlen m hm))
      have hfilt : ((p.monomials.map (fun m => specMonomialDerivative m v)).filter
          (fun m => !isZeroMonomial m)) =
          (p.monomials.map (fun m => monomialDerivative m v)).filter
          (fun n => !(decide (n = zeroMonomial))) := by
        rw [hmapeq]
        exact List.filter_congr (fun n _ => by rw [isZeroMonomial_eq])
      have hKdk : ∀ m ∈ (p.monomials.map (fun m => monomialDerivative m v)).filter
          (fun n => !(decide (n = zeroMonomial))), distinctKeys m.weight_dict = true :=
        fun m hm => distinctKeys_of_len1 _ (hKlen m hm)
      simp only [specDerivative, hc, if_true, hfilt,
        specConsolidate_identity _ hKdk hkp]
      by_cases hemp : ((p.monomials.map (fun m => monomialDerivative m v)).filter
          (fun n => !(decide (n = zeroMonomial)))).filter
          (fun m => !(m.coefficient == 0)) = []
      · rw [hemp]
        simp only [List.isEmpty_nil, if_true]
        decide
      · have hne : (((p.monomials.map (fun m => monomialDerivative m v)).filter
            (fun n => !(decide (n = zeroMonomial)))).filter
            (fun m => !(m.coefficient == 0))).isEmpty = false := by
          cases hE : (((p.monomials.map (fun m => monomialDerivative m v)).filter
              (fun n => !(decide (n = zeroMonomial)))).filter
              (fun m => !(m.coefficient == 0))).isEmpty
          · rfl
          · exact absurd (List.isEmpty_iff.mp hE) hemp
        rw [hne]
        simp only [Bool.false_eq_true, if_false]
        apply monomialSetEq_refl
        intro m hm
        exact hKdk m (List.mem_of_mem_filter hm)
  · have hc2 : p.indeterminates.contains v = false := by
      cases h2 : p.indeterminates.contains v
      · rfl
      · exact absurd h2 hc
    have hval : polynomialDerivative p v = .ok zeroPolynomial := by
      simp only [polynomialDerivative, hc2, Bool.not_false, if_true]
      exact fromLiteral_zero_eq
    refine ⟨fun _ => hval, ?_⟩
    intro r hr
    rw [hval] at hr
    cases hr
    simp only [specDerivative, hc2, Bool.false_eq_true, if_false]
    decide

/-- Witness for C4 at `p = x^2`, `v = x`: the hypotheses hold and the
derivative `2*x` matches the spec's description. -/
theorem claim4_witness :
    pyLivePolynomial ⟨[⟨1, [(⟨"x"⟩, 2)]⟩], [⟨"x"⟩]⟩ = true ∧
    pairwiseDistinctShapes ([⟨1, [(⟨"x"⟩, 2)]⟩] : List Monomial) = true ∧
    monomialSetEq ([⟨2, [(⟨"x"⟩, 1)]⟩] : List Monomial)
      (specDerivative ⟨[⟨1, [(⟨"x"⟩, 2)]⟩], [⟨"x"⟩]⟩ ⟨"x"⟩) = true :=
  ⟨by with_unfolding_all decide, by decide,
    (claim4_derivative_refines_spec ⟨[⟨1, [(⟨"x"⟩, 2)]⟩], [⟨"x"⟩]⟩ ⟨"x"⟩
      (by with_unfolding_all decide) (by decide)).2
      ⟨[⟨2, [(⟨"x"⟩, 1)]⟩], [⟨"x"⟩]⟩ (by with_unfolding_all decide)⟩

end SymbolicComputation
